import Mathlib

/-!
Verification of the CPU scheduling algorithms simulator (single C++ source,
`src/code.cpp`).  The file embeds the scheduling engines FCFS, SJF
(non-preemptive), Priority (non-preemptive), SRTF (preemptive) and Round
Robin as executable Lean functions over lists, mirroring the C++ loops
statement by statement, and proves the specification claims about them.

Modelling conventions:
* C++ `int` is embedded as `Int` (no input reaches the overflow range in the
  defined-behaviour domain; signed overflow would be undefined behaviour).
* The `while` loops are embedded with an explicit fuel argument; the fuel
  chosen in the top-level definitions is proved sufficient, which is the
  termination claim.
* Gantt labels, strings `"IDLE"` and `"P" + to_string(pid)` in the source,
  are embedded by the inductive `Blk`; string comparison coincides with
  `Blk` equality because `to_string` is injective on `int`.
* `std::sort` is called with strict comparators on `at` resp. `pid`.  Its
  order on tied keys is unspecified by the standard; the embedding fixes it
  to the stable behaviour that libstdc++ exhibits on the small ranges this
  program sorts (insertion sort).  Sorting by `pid` is unaffected because
  pids are distinct.
* The pid-indexed array `pid_to_idx` in `RoundRobin` is written but never
  read, so it is not part of the embedding.
-/

namespace CpuSched

/-- Embedding of the C++ class `Process`; the field `at` of the source is
renamed `arrival` because `at` is a Lean keyword. -/
structure Process where
  pid : Int
  arrival : Int
  bt : Int
  rem_bt : Int
  ct : Int
  tat : Int
  wt : Int
  priority : Int
deriving DecidableEq

/-- Constructor `Process(id, a, b, p)` of the source: `rem_bt` is
initialized to the burst time and the metric fields to zero. -/
def mkProc (id a b p : Int) : Process :=
  ⟨id, a, b, b, 0, 0, 0, p⟩

/-- Gantt-chart block label: the C++ strings `"IDLE"` and `"P<pid>"`. -/
inductive Blk where
  | idle : Blk
  | proc : Int → Blk
deriving DecidableEq

def Blk.isIdle : Blk → Bool
  | Blk.idle => true
  | Blk.proc _ => false

/-- Stable insertion by a strict integer key, the building block used to
embed the `std::sort` calls of the source (see the header comment). -/
def insertKey (key : Process → Int) (p : Process) : List Process → List Process
  | [] => [p]
  | q :: rest => if key p < key q then p :: q :: rest else q :: insertKey key p rest

/-- Stable sort by a strict integer key. -/
def sortKey (key : Process → Int) (l : List Process) : List Process :=
  l.foldl (fun acc p => insertKey key p acc) []

/-- Embedding of `sort(procs, [](a,b){ return a.at < b.at; })`. -/
def sortByArrival (l : List Process) : List Process :=
  sortKey (fun p => p.arrival) l

/-- Embedding of `sort(procs, [](a,b){ return a.pid < b.pid; })`, the
re-sort performed by `printResults`. -/
def sortByPid (l : List Process) : List Process :=
  sortKey (fun p => p.pid) l

/-- A scheduler result: the process records as handed to `printResults`
(re-sorted by pid there), plus the Gantt chart data printed with them. -/
structure Result where
  procs : List Process
  timeline : List Int
  blocks : List Blk
deriving DecidableEq

/-- Idle-time computation of `printResults`: sum `timeline[i+1] -
timeline[i]` over the positions `i` with `blocks[i] == "IDLE"` and
`i + 1 < timeline.size()`. -/
def idleTime (r : Result) : Int :=
  (List.range r.blocks.length).foldl
    (fun acc i =>
      if r.blocks.getD i Blk.idle = Blk.idle ∧ i + 1 < r.timeline.length then
        acc + (r.timeline.getD (i+1) 0 - r.timeline.getD i 0)
      else acc) 0

/-- Total chart time carrying the label of process `pid`, measured the same
way `printResults` measures idle time.  This is the quantity of spec
invariant 4. -/
def labeledTime (r : Result) (pid : Int) : Int :=
  (List.range r.blocks.length).foldl
    (fun acc i =>
      if r.blocks.getD i Blk.idle = Blk.proc pid ∧ i + 1 < r.timeline.length then
        acc + (r.timeline.getD (i+1) 0 - r.timeline.getD i 0)
      else acc) 0

/-- Completion time of the process with the given pid in a result. -/
def ctOf (r : Result) (pid : Int) : Option Int :=
  (r.procs.find? (fun p => p.pid == pid)).map Process.ct

/-- Waiting time of the process with the given pid in a result. -/
def wtOf (r : Result) (pid : Int) : Option Int :=
  (r.procs.find? (fun p => p.pid == pid)).map Process.wt

/-- Burst time of the process with the given pid in a result. -/
def btOf (r : Result) (pid : Int) : Option Int :=
  (r.procs.find? (fun p => p.pid == pid)).map Process.bt

/-- Remaining burst of every record in a result is zero (the notion of a
fully completed result used by the error-handling section of the spec). -/
def allRemZero (l : List Process) : Prop := ∀ p ∈ l, p.rem_bt = 0

instance (l : List Process) : Decidable (allRemZero l) := by
  unfold allRemZero; infer_instance

/-!  ## FCFS  -/

/-- The `for (auto &p : procs)` loop of `FCFS`: emit an IDLE block when the
CPU has to wait for the next arrival, then run the process to completion
and set its metrics. -/
def fcfsRun : List Process → Int → List Int → List Blk →
    List Process × Int × List Int × List Blk
  | [], time, tl, bl => ([], time, tl, bl)
  | p :: rest, time, tl, bl =>
    let time1 := if time < p.arrival then p.arrival else time
    let tl1 := if time < p.arrival then tl ++ [p.arrival] else tl
    let bl1 := if time < p.arrival then bl ++ [Blk.idle] else bl
    let time2 := time1 + p.bt
    let done := { p with ct := time2, tat := time2 - p.arrival,
                         wt := time2 - p.arrival - p.bt }
    let r := fcfsRun rest time2 (tl1 ++ [time2]) (bl1 ++ [Blk.proc p.pid])
    (done :: r.1, r.2)

/-- `FCFS` after its arrival sort: the run over an already-sorted process
list.  `std::sort` guarantees only *some* permutation of the input that is
non-decreasing on the comparator key, leaving the order of arrival ties
unspecified, so properties of `FCFS` on inputs with ties must hold of
`fcfsFrom l` for every conforming `l`. -/
def fcfsFrom (sorted : List Process) : Result :=
  let r := fcfsRun sorted 0 [0] []
  ⟨sortByPid r.1, r.2.2.1, r.2.2.2⟩

/-- Embedding of `FCFS`, with the arrival sort fixed to the stable
insertion sort (one conforming `std::sort` outcome). -/
def FCFS (procs : List Process) : Result :=
  fcfsFrom (sortByArrival procs)

/-!  ## The linear-scan argmin shared by SJF, Priority and SRTF

The three selection loops of the source have the identical shape:
`idx = -1; minKey = INT_MAX;` then scan the process array left to right,
select an eligible element when its key is strictly below the running
minimum (`key < minKey`, which on the first selection is the comparison
against the `INT_MAX` initializer), and on a key tie (`key == minKey`,
guarded by `idx != -1`) when its `at` is strictly smaller.  Since `minKey`
always equals the key of the current best once `idx != -1`, the state is
carried as `Option (index, element)`; the `INT_MAX` initializer survives
as the comparison in the `none` case, so an eligible element whose key
equals `INT_MAX` is never selected, exactly as in the source. -/

/-- The value of `INT_MAX` (`<climits>`, 32-bit `int`). -/
def INT_MAX : Int := 2147483647

/-- One iteration of the selection scan at index `i`. -/
def pickStep {α : Type} (elig : α → Bool) (key : α → Int) (tie : α → Int)
    (i : Nat) (best : Option (Nat × α)) (x : α) : Option (Nat × α) :=
  if elig x then
    match best with
    | none => if key x < INT_MAX then some (i, x) else none
    | some (j, y) =>
      if key x < key y then some (i, x)
      else if key x = key y ∧ tie x < tie y then some (i, x)
      else some (j, y)
  else best

def scanPick {α : Type} (elig : α → Bool) (key : α → Int) (tie : α → Int) :
    Nat → Option (Nat × α) → List α → Option (Nat × α)
  | _, best, [] => best
  | i, best, x :: rest =>
    scanPick elig key tie (i+1) (pickStep elig key tie i best x) rest

/-- Embedding of the `found_next` variant of the idle-branch fold used by
`SRTF` and `RoundRobin`: `next_arrival_time = INT_MAX; found_next = false;
for ... { next_arrival_time = min(next_arrival_time, v); found_next =
true; }`, with `none` for `found_next == false`.  (These two engines break
out of the loop on the flag, not on the sentinel, so the computed minimum
is returned even when it equals `INT_MAX`.) -/
def optMinFold {α : Type} (cond : α → Bool) (val : α → Int) (l : List α)
    (acc : Option Int) : Option Int :=
  l.foldl
    (fun a x =>
      if cond x then
        some (match a with
              | none => val x
              | some m => min m (val x))
      else a) acc

/-- Embedding of the sentinel variant of the idle-branch fold used by
`SJF` and `PriorityScheduling`: `next_arrival_time = INT_MAX; for ... {
next_arrival_time = min(next_arrival_time, v); }`, whose result is
compared against `INT_MAX` afterwards to decide between jumping and
breaking out. -/
def intMinFold {α : Type} (cond : α → Bool) (val : α → Int) (l : List α)
    (acc : Int) : Int :=
  l.foldl (fun a x => if cond x then min a (val x) else a) acc

/-!  ## SJF and Priority (non-preemptive)

The two functions differ only in the selection key, so they are embedded as
one loop parameterized by the key.  The per-process `completed` flag array
is carried as the Bool component of the state pairs. -/

/-- Selection loop of `SJF` / `PriorityScheduling` at the given time. -/
def npPick (key : Process → Int) (time : Int)
    (st : List (Process × Bool)) : Option (Nat × (Process × Bool)) :=
  scanPick (fun pc => !pc.2 && decide (pc.1.arrival ≤ time))
    (fun pc => key pc.1) (fun pc => pc.1.arrival) 0 none st

/-- Minimum arrival among uncompleted processes (the IDLE branch), with
the `INT_MAX` initializer: the result equals `INT_MAX` exactly on the
source path that `break`s out of the loop. -/
def npNextArrival (st : List (Process × Bool)) : Int :=
  intMinFold (fun pc => !pc.2) (fun pc => pc.1.arrival) st INT_MAX

/-- The `while (completedCount < n)` loop of `SJF` and
`PriorityScheduling`, with explicit fuel. -/
def npLoop (key : Process → Int) :
    Nat → Int → Nat → List (Process × Bool) → List Int → List Blk →
    List (Process × Bool) × Int × List Int × List Blk
  | 0, time, _, st, tl, bl => (st, time, tl, bl)
  | fuel+1, time, cnt, st, tl, bl =>
    if cnt < st.length then
      match npPick key time st with
      | none =>
        if npNextArrival st ≠ INT_MAX then
          npLoop key fuel (npNextArrival st) cnt st
            (tl ++ [npNextArrival st]) (bl ++ [Blk.idle])
        else (st, time, tl, bl)
      | some (i, pc) =>
        let t2 := time + pc.1.bt
        let done := ({ pc.1 with ct := t2, tat := t2 - pc.1.arrival,
                                 wt := t2 - pc.1.arrival - pc.1.bt }, true)
        npLoop key fuel t2 (cnt + 1) (st.set i done) (tl ++ [t2])
          (bl ++ [Blk.proc pc.1.pid])
    else (st, time, tl, bl)

/-- Fuel sufficient for the non-preemptive loops (proved below): at worst
one IDLE jump precedes each of the `n` dispatches. -/
def npFuel (n : Nat) : Nat := 2 * n + 1

/-- Selection key of `SJF`: the burst time. -/
def btKey (p : Process) : Int := p.bt

/-- Selection key of `PriorityScheduling`: the priority value. -/
def prioKey (p : Process) : Int := p.priority

/-- Embedding of `SJF` (non-preemptive, key = burst time). -/
def SJF (procs : List Process) : Result :=
  let st := procs.map (fun p => (p, false))
  let r := npLoop btKey (npFuel procs.length) 0 0 st [0] []
  ⟨sortByPid (r.1.map (fun pc => pc.1)), r.2.2.1, r.2.2.2⟩

/-- Embedding of `PriorityScheduling` (non-preemptive, key = priority). -/
def PriorityScheduling (procs : List Process) : Result :=
  let st := procs.map (fun p => (p, false))
  let r := npLoop prioKey (npFuel procs.length) 0 0 st [0] []
  ⟨sortByPid (r.1.map (fun pc => pc.1)), r.2.2.1, r.2.2.2⟩

/-!  ## Gantt chart cleanup (shared by SRTF and RoundRobin)  -/

/-- Body of the cleanup `for` loop: index `i` runs over `blocks`, a block is
kept when it differs from the last kept one, and `timeline[i]` is kept with
it. -/
def mergeGo (bl : List Blk) (tl : List Int) :
    Nat → Nat → Blk → List Blk × List Int → List Blk × List Int
  | 0, _, _, acc => acc
  | fuel+1, i, lastb, acc =>
    if i < bl.length then
      let bi := bl.getD i Blk.idle
      if bi ≠ lastb then
        mergeGo bl tl fuel (i+1) bi (acc.1 ++ [bi], acc.2 ++ [tl.getD i 0])
      else mergeGo bl tl fuel (i+1) lastb acc
    else acc

/-- The Gantt-chart cleanup pass: merge consecutive identical blocks, then
append the final timeline entry when it is not already there. -/
def mergeChart (bl : List Blk) (tl : List Int) : List Blk × List Int :=
  match bl with
  | [] => ([], [])
  | b0 :: _ =>
    let m := mergeGo bl tl bl.length 1 b0 ([b0], [tl.getD 0 0])
    if m.2.getLast? ≠ tl.getLast? then
      (m.1, m.2 ++ [tl.getD (tl.length - 1) 0])
    else m

/-!  ## SRTF  -/

/-- SRTF eligibility: arrived and not finished. -/
def srtfElig (time : Int) (p : Process) : Bool :=
  decide (p.arrival ≤ time) && decide (0 < p.rem_bt)

/-- Minimum arrival among processes with remaining work (IDLE branch of
`SRTF`). -/
def srtfNextArrival (st : List Process) : Option Int :=
  optMinFold (fun p => decide (0 < p.rem_bt)) (fun p => p.arrival) st none

/-- The `while (completedCount < n)` loop of `SRTF`: pick the eligible
process with the least remaining time (FCFS tie-break), run it for one time
unit, finalize its metrics when it finishes.  `last` embeds
`last_block_id`, with `none` for the empty string. -/
def srtfLoop :
    Nat → Int → Nat → List Process → List Int → List Blk → Option Blk →
    List Process × Int × List Int × List Blk
  | 0, time, _, st, tl, bl, _ => (st, time, tl, bl)
  | fuel+1, time, cnt, st, tl, bl, last =>
    if cnt < st.length then
      match scanPick (srtfElig time) (fun p => p.rem_bt) (fun p => p.arrival)
          0 none st with
      | none =>
        match srtfNextArrival st with
        | some nt =>
          let bl1 := if last ≠ some Blk.idle then bl ++ [Blk.idle] else bl
          let tl1 := if last ≠ some Blk.idle then tl ++ [time] else tl
          srtfLoop fuel nt cnt st tl1 bl1 (some Blk.idle)
        | none => (st, time, tl, bl)
      | some (i, p) =>
        let cur := Blk.proc p.pid
        let bl1 := if some cur ≠ last then bl ++ [cur] else bl
        let tl1 := if some cur ≠ last ∧ last ≠ some Blk.idle then tl ++ [time]
                   else tl
        let p1 := { p with rem_bt := p.rem_bt - 1 }
        let t1 := time + 1
        if p1.rem_bt = 0 then
          let p2 := { p1 with ct := t1, tat := t1 - p1.arrival,
                              wt := t1 - p1.arrival - p1.bt }
          srtfLoop fuel t1 (cnt + 1) (st.set i p2) (tl1 ++ [t1]) bl1 none
        else
          srtfLoop fuel t1 cnt (st.set i p1) tl1 bl1 (some cur)
    else (st, time, tl, bl)

/-- Fuel sufficient for `srtfLoop` (proved below): at worst one IDLE jump
precedes each of the `Σ burst` one-unit execution steps. -/
def srtfFuel (procs : List Process) : Nat :=
  2 * (procs.map (fun p => p.bt.toNat)).sum + 1

/-- Embedding of `SRTF`, including the initial `rem_bt` reset and the
chart cleanup pass. -/
def SRTF (procs : List Process) : Result :=
  let st := procs.map (fun p => { p with rem_bt := p.bt })
  let r := srtfLoop (srtfFuel procs) 0 0 st [0] [] none
  let m := mergeChart r.2.2.2 r.2.2.1
  ⟨sortByPid r.1, m.2, m.1⟩

/-!  ## Round Robin  -/

/-- Arrival-admission scan of `RoundRobin` (run both before dispatching and
after each quantum): starting at index `i`, enqueue every not-yet-enqueued
process that has arrived, stop at the first process with a later arrival.
The fuel argument is `st.length - i` at every call. -/
def rrAdmitGo (st : List Process) (time : Int) :
    Nat → Nat → List Bool → List Nat → Nat → List Bool × List Nat × Nat
  | 0, _, inq, q, next => (inq, q, next)
  | fuel+1, i, inq, q, next =>
    match st.get? i with
    | none => (inq, q, next)
    | some p =>
      if p.arrival ≤ time ∧ inq.getD i false = false then
        rrAdmitGo st time fuel (i+1) (inq.set i true) (q ++ [i]) (i+1)
      else if time < p.arrival then (inq, q, next)
      else rrAdmitGo st time fuel (i+1) inq q next

def rrAdmit (st : List Process) (time : Int) (inq : List Bool) (q : List Nat)
    (next : Nat) : List Bool × List Nat × Nat :=
  rrAdmitGo st time (st.length - next) next inq q next

/-- IDLE branch scan of `RoundRobin`: the arrival time of the first process
at index ≥ `i` that still has remaining work. -/
def rrNextArrGo (st : List Process) : Nat → Nat → Option Int
  | 0, _ => none
  | fuel+1, i =>
    match st.get? i with
    | none => none
    | some p => if 0 < p.rem_bt then some p.arrival else rrNextArrGo st fuel (i+1)

def rrNextArrival (st : List Process) (i : Nat) : Option Int :=
  rrNextArrGo st (st.length - i) i

/-- The `while (completedCount < n)` loop of `RoundRobin`.  The state
mirrors the C++ locals: `cnt` = completedCount, `st` = procs (sorted by
arrival), `inq` = inQueue, `q` = readyQueue (process indices), `next` =
next_proc_to_arrive, plus the Gantt accumulators and `last` =
last_block_id.  The `none` case of the queue-head lookup is unreachable
(queue members are in range); the C++ indexes the vector unchecked there. -/
def rrLoop (quantum : Int) :
    Nat → Int → Nat → List Process → List Bool → List Nat → Nat →
    List Int → List Blk → Option Blk →
    List Process × Int × List Int × List Blk
  | 0, time, _, st, _, _, _, tl, bl, _ => (st, time, tl, bl)
  | fuel+1, time, cnt, st, inq, q, next, tl, bl, last =>
    if cnt < st.length then
      let a := rrAdmit st time inq q next
      let inq1 := a.1
      let q1 := a.2.1
      let next1 := a.2.2
      match q1 with
      | [] =>
        match rrNextArrival st next1 with
        | some nt =>
          let bl1 := if last ≠ some Blk.idle then bl ++ [Blk.idle] else bl
          let tl1 := if last ≠ some Blk.idle then tl ++ [time] else tl
          rrLoop quantum fuel nt cnt st inq1 q1 next1 tl1 bl1 (some Blk.idle)
        | none => (st, time, tl, bl)
      | j :: qrest =>
        match st.get? j with
        | none => (st, time, tl, bl)
        | some p =>
          let inq2 := inq1.set j false
          let ex := min quantum p.rem_bt
          let cur := Blk.proc p.pid
          let bl1 := if some cur ≠ last then bl ++ [cur] else bl
          let tl1 := if some cur ≠ last ∧ last ≠ some Blk.idle then tl ++ [time]
                     else tl
          let p1 := { p with rem_bt := p.rem_bt - ex }
          let t1 := time + ex
          let st1 := st.set j p1
          let a2 := rrAdmit st1 t1 inq2 qrest next1
          let inq3 := a2.1
          let q3 := a2.2.1
          let next3 := a2.2.2
          if p1.rem_bt = 0 then
            let p2 := { p1 with ct := t1, tat := t1 - p1.arrival,
                                wt := t1 - p1.arrival - p1.bt }
            rrLoop quantum fuel t1 (cnt + 1) (st1.set j p2) inq3 q3 next3
              (tl1 ++ [t1]) bl1 none
          else
            rrLoop quantum fuel t1 cnt st1 (inq3.set j true) (q3 ++ [j]) next3
              (tl1 ++ [t1]) bl1 none
    else (st, time, tl, bl)

/-- Fuel sufficient for `rrLoop` (proved below): every dispatch runs at
least one time unit, and at worst one IDLE jump precedes each dispatch. -/
def rrFuel (procs : List Process) : Nat :=
  2 * (procs.map (fun p => p.bt.toNat)).sum + 1

/-- `RoundRobin` after its arrival sort (see `fcfsFrom`): the loop, the
`rem_bt` reset and the chart cleanup pass over an already-sorted process
list, taking the fuel bound as a parameter so that the caller can supply
`rrFuel` of the unsorted input. -/
def rrFrom (quantum : Int) (fuel : Nat) (sorted0 : List Process) : Result :=
  let sorted := sorted0.map (fun p => { p with rem_bt := p.bt })
  let r := rrLoop quantum fuel 0 0 sorted
    (List.replicate sorted.length false) [] 0 [0] [] none
  let m := mergeChart r.2.2.2 r.2.2.1
  ⟨sortByPid r.1, m.2, m.1⟩

/-- Embedding of `RoundRobin`, with the arrival sort fixed to the stable
insertion sort (one conforming `std::sort` outcome). -/
def RoundRobin (procs : List Process) (quantum : Int) : Result :=
  rrFrom quantum (rrFuel procs) (sortByArrival procs)

/-!  ## Valid inputs

The engines are called exclusively from `main`, which builds process `i`
(1-based) as `Process(i+1, at, bt, pri)` after validating `n > 0`,
`at ≥ 0`, `bt > 0`, `pri ≥ 0`; a Round Robin quantum must be positive. -/

/-- The inputs the program can hand to a scheduler. -/
def ValidInput (procs : List Process) : Prop :=
  procs ≠ [] ∧
  ∀ i, (h : i < procs.length) →
    (procs.get ⟨i, h⟩).pid = (i : Int) + 1 ∧
    0 ≤ (procs.get ⟨i, h⟩).arrival ∧
    0 < (procs.get ⟨i, h⟩).bt ∧
    0 ≤ (procs.get ⟨i, h⟩).priority ∧
    (procs.get ⟨i, h⟩).rem_bt = (procs.get ⟨i, h⟩).bt ∧
    (procs.get ⟨i, h⟩).ct = 0 ∧ (procs.get ⟨i, h⟩).tat = 0 ∧
    (procs.get ⟨i, h⟩).wt = 0

instance (procs : List Process) : Decidable (ValidInput procs) := by
  unfold ValidInput; infer_instance

/-!  ## Concrete scenarios of the specification  -/

def s1Procs : List Process := [mkProc 1 0 5 0, mkProc 2 1 3 0, mkProc 3 2 8 0]

def s4Procs : List Process := [mkProc 1 0 7 0, mkProc 2 2 4 0, mkProc 3 4 1 0]

def s5Procs : List Process := [mkProc 1 0 5 0, mkProc 2 1 3 0, mkProc 3 2 2 0]

def s6Procs : List Process := [mkProc 1 10 3 0]

/-- A minimal valid input used as a counterexample carrier. -/
def oneProc : List Process := [mkProc 1 0 1 0]

/-- Seventeen processes with equal arrival times: `std::sort` ties that
libstdc++ really does permute (its introsort is unstable above 16
elements), and that the standard leaves unspecified at any size. -/
def c5Procs : List Process :=
  (List.range 17).map (fun i => mkProc ((i : Int) + 1) 0 1 0)

/-- An arrival-sorted permutation of `c5Procs` that a conforming
`std::sort` may produce, in which the tied pids 1 and 2 are swapped. -/
def c5Perm : List Process :=
  mkProc 2 0 1 0 :: mkProc 1 0 1 0 ::
    (List.range 15).map (fun i => mkProc ((i : Int) + 3) 0 1 0)

/-- A single process arriving at `INT_MAX`, the sentinel collision of the
SJF/Priority idle branch. -/
def maxArrProc : List Process := [mkProc 1 2147483647 1 0]

/-!  ## Specification-side notions used to state the claims  -/

/-- The metric contract of the spec for a completed process record:
completion at or after arrival + burst, turnaround = completion − arrival,
waiting = turnaround − burst, waiting non-negative. -/
def MetricsOk (p : Process) : Prop :=
  p.arrival + p.bt ≤ p.ct ∧ p.tat = p.ct - p.arrival ∧
  p.wt = p.tat - p.bt ∧ 0 ≤ p.wt

instance (p : Process) : Decidable (MetricsOk p) := by
  unfold MetricsOk; infer_instance

/-- The execution-order labels of a chart: its blocks with IDLE removed. -/
def nonIdleBlocks (r : Result) : List Blk :=
  r.blocks.filter (fun b => !(Blk.isIdle b))

/-- Strict lexicographic order on (arrival, pid), the order the spec claims
FCFS executes in. -/
def lexLtAP (a b : Process) : Prop :=
  a.arrival < b.arrival ∨ (a.arrival = b.arrival ∧ a.pid < b.pid)

instance (a b : Process) : Decidable (lexLtAP a b) := by
  unfold lexLtAP; infer_instance

/-- Insertion w.r.t. `lexLtAP` (spec-side definition for the claimed FCFS
order). -/
def insertAP (p : Process) : List Process → List Process
  | [] => [p]
  | q :: rest => if lexLtAP p q then p :: q :: rest else q :: insertAP p rest

/-- The input sorted by arrival time with ties broken by pid ascending
(spec-side definition). -/
def sortByArrivalPid (l : List Process) : List Process :=
  l.foldl (fun acc p => insertAP p acc) []

/-- Process records listed in ascending pid order. -/
def pidOrdered (l : List Process) : Prop :=
  l.Pairwise (fun a b => a.pid ≤ b.pid)

instance (l : List Process) : Decidable (pidOrdered l) := by
  unfold pidOrdered; infer_instance

/-- The pid of the record at every position of a scheduler state is its
position + 1, as `main` constructs the process list. -/
def pidIndexed (st : List (Process × Bool)) : Prop :=
  ∀ i, (h : i < st.length) → (st.get ⟨i, h⟩).1.pid = (i : Int) + 1

instance (st : List (Process × Bool)) : Decidable (pidIndexed st) := by
  unfold pidIndexed; infer_instance

/-- Lexicographic comparison on (key, tie, scan position) used to state
that the selection scans pick a minimum. -/
def lexLe3 (k1 t1 : Int) (i1 : Nat) (k2 t2 : Int) (i2 : Nat) : Prop :=
  k1 < k2 ∨ (k1 = k2 ∧ (t1 < t2 ∨ (t1 = t2 ∧ i1 ≤ i2)))

/-- Total remaining burst of a state, the termination measure of the
preemptive loops. -/
def sumRem (st : List Process) : Nat :=
  (st.map (fun p => p.rem_bt.toNat)).sum

/-- Arrival times of a state are non-decreasing along positions (the
Round Robin state after its initial sort). -/
def arrivalsSorted (st : List Process) : Prop :=
  (st.map (fun p => p.arrival)).Pairwise (fun a b => a ≤ b)

instance (st : List Process) : Decidable (arrivalsSorted st) := by
  unfold arrivalsSorted; infer_instance

/-- Demonstration state for the SJF selection claim: P1 completed, P2 and
P3 ready with equal bursts. -/
def c6St : List (Process × Bool) :=
  [(mkProc 1 0 5 0, true), (mkProc 2 1 3 0, false), (mkProc 3 2 3 0, false)]

/-!  ## Concrete-scenario claims  -/

/-- C1 counterexample: on scenario S5 with quantum 2, Round Robin does not
give P1 the completion time 11 the claim states (P1 has burst 5 and the
trace has no idle time, so its completion time is at most 10). -/
theorem C1_counterexample :
    ¬ (ctOf (RoundRobin s5Procs 2) 1 = some 11 ∧
       ctOf (RoundRobin s5Procs 2) 2 = some 9 ∧
       ctOf (RoundRobin s5Procs 2) 3 = some 6) := by
  decide

/-- C1 amended: Round Robin on scenario S5 (quantum 2, arrivals admitted
before the preempted process is re-enqueued) completes P1 at 10, P2 at 9
and P3 at 6. -/
theorem C1_rr_s5_completion_times :
    ctOf (RoundRobin s5Procs 2) 1 = some 10 ∧
    ctOf (RoundRobin s5Procs 2) 2 = some 9 ∧
    ctOf (RoundRobin s5Procs 2) 3 = some 6 := by
  decide

/-- C2: on scenario S4 the SRTF chart has the claimed label sequence
P1 P2 P3 P2 P1, but the emitted boundaries are [0,0,2,4,5,12] instead of
the claimed [0,2,4,5,7,12]: the loop pushes the current time both when a
process completes and again when the next block starts (and pushes 0 twice
at the start), so the cleanup pass pairs each block with the wrong
timeline entry. -/
theorem C2_srtf_s4_chart :
    (SRTF s4Procs).blocks =
      [Blk.proc 1, Blk.proc 2, Blk.proc 3, Blk.proc 2, Blk.proc 1] ∧
    (SRTF s4Procs).timeline = [0, 0, 2, 4, 5, 12] ∧
    (SRTF s4Procs).timeline ≠ [0, 2, 4, 5, 7, 12] := by
  decide

/-- C3: on scenario S4 the SRTF chart charges process 3 two time units
although its burst is 1, because of the misaligned timeline described at
C2_srtf_s4_chart; the burst-sum invariant fails for SRTF (and Round
Robin). -/
theorem C3_srtf_s4_labeled_time :
    btOf (SRTF s4Procs) 3 = some 1 ∧ labeledTime (SRTF s4Procs) 3 = 2 := by
  decide

/-- C4: for the single process P1(arrival 10, burst 3), FCFS, SJF and
Priority emit the chart IDLE[0,10] P1[10,13] with idle time 10 as claimed,
and all five engines give completion 13 and waiting 0; but SRTF and Round
Robin emit the timeline [0,0,13] (chart IDLE[0,0] P1[0,13]) and report
idle time 0, because the IDLE jump pushes the pre-jump time and the jump
target is never pushed. -/
theorem C4_s6_divergence :
    (FCFS s6Procs).blocks = [Blk.idle, Blk.proc 1] ∧
    (FCFS s6Procs).timeline = [0, 10, 13] ∧
    idleTime (FCFS s6Procs) = 10 ∧
    (SJF s6Procs).timeline = [0, 10, 13] ∧
    idleTime (SJF s6Procs) = 10 ∧
    (PriorityScheduling s6Procs).timeline = [0, 10, 13] ∧
    idleTime (PriorityScheduling s6Procs) = 10 ∧
    ctOf (FCFS s6Procs) 1 = some 13 ∧ wtOf (FCFS s6Procs) 1 = some 0 ∧
    ctOf (SRTF s6Procs) 1 = some 13 ∧ wtOf (SRTF s6Procs) 1 = some 0 ∧
    ctOf (RoundRobin s6Procs 2) 1 = some 13 ∧
    wtOf (RoundRobin s6Procs 2) 1 = some 0 ∧
    (SRTF s6Procs).blocks = [Blk.idle, Blk.proc 1] ∧
    (SRTF s6Procs).timeline = [0, 0, 13] ∧
    idleTime (SRTF s6Procs) = 0 ∧
    (RoundRobin s6Procs 2).timeline = [0, 0, 13] ∧
    idleTime (RoundRobin s6Procs 2) = 0 := by
  decide

/-- C8: SRTF on scenario S4 completes P1 at 12, P2 at 7 and P3 at 5, as
claimed. -/
theorem C8_srtf_s4_completion_times :
    ctOf (SRTF s4Procs) 1 = some 12 ∧
    ctOf (SRTF s4Procs) 2 = some 7 ∧
    ctOf (SRTF s4Procs) 3 = some 5 := by
  decide

/-- C9 counterexample: FCFS (like SJF and Priority) never decrements
`rem_bt`, so even on a valid single-process input the emitted records do
not have remaining burst 0. -/
theorem C9_counterexample :
    (ValidInput oneProc ∧ ¬ allRemZero (FCFS oneProc).procs) ∧
    (ValidInput maxArrProc ∧ ∃ p ∈ (SJF maxArrProc).procs, p.ct = 0) := by
  decide

/-!  ## Insertion-sort lemmas  -/

theorem insertKey_perm (key : Process → Int) (p : Process) (l : List Process) :
    (insertKey key p l).Perm (p :: l) := by
  induction l with
  | nil => simp [insertKey]
  | cons q rest ih =>
    by_cases h : key p < key q
    · simp [insertKey, h]
    · simp only [insertKey, if_neg h]
      exact (ih.cons q).trans (List.Perm.swap p q rest)

theorem foldl_insertKey_perm (key : Process → Int) :
    ∀ (l acc : List Process),
      (l.foldl (fun a p => insertKey key p a) acc).Perm (acc ++ l) := by
  intro l
  induction l with
  | nil => intro acc; simp
  | cons p rest ih =>
    intro acc
    have h1 := ih (insertKey key p acc)
    have h2 : (insertKey key p acc ++ rest).Perm ((p :: acc) ++ rest) :=
      (insertKey_perm key p acc).append_right rest
    refine List.Perm.trans ?_ (h2.trans ?_)
    · exact h1
    · simpa using List.perm_middle.symm

theorem sortKey_perm (key : Process → Int) (l : List Process) :
    (sortKey key l).Perm l := by
  simpa [sortKey] using foldl_insertKey_perm key l []

theorem mem_insertKey {key : Process → Int} {p x : Process} {l : List Process} :
    x ∈ insertKey key p l ↔ x = p ∨ x ∈ l := by
  rw [(insertKey_perm key p l).mem_iff]
  simp

theorem insertKey_pairwise (key : Process → Int) (p : Process) :
    ∀ (l : List Process), l.Pairwise (fun a b => key a ≤ key b) →
      (insertKey key p l).Pairwise (fun a b => key a ≤ key b) := by
  intro l
  induction l with
  | nil => intro _; simp [insertKey]
  | cons q rest ih =>
    intro h
    rw [List.pairwise_cons] at h
    by_cases hpq : key p < key q
    · simp only [insertKey, if_pos hpq]
      rw [List.pairwise_cons]
      refine ⟨?_, List.pairwise_cons.mpr h⟩
      intro x hx
      rcases List.mem_cons.mp hx with rfl | hx
      · exact le_of_lt hpq
      · exact le_of_lt (lt_of_lt_of_le hpq (h.1 x hx))
    · simp only [insertKey, if_neg hpq]
      rw [List.pairwise_cons]
      refine ⟨?_, ih h.2⟩
      intro x hx
      rcases mem_insertKey.mp hx with rfl | hx
      · exact le_of_not_lt hpq
      · exact h.1 x hx

theorem sortKey_pairwise (key : Process → Int) (l : List Process) :
    (sortKey key l).Pairwise (fun a b => key a ≤ key b) := by
  suffices h : ∀ (l acc : List Process),
      acc.Pairwise (fun a b => key a ≤ key b) →
      (l.foldl (fun a p => insertKey key p a) acc).Pairwise
        (fun a b => key a ≤ key b) by
    exact h l [] (by simp)
  intro l
  induction l with
  | nil => intro acc hacc; simpa
  | cons p rest ih =>
    intro acc hacc
    exact ih (insertKey key p acc) (insertKey_pairwise key p acc hacc)

theorem sortByPid_ordered (l : List Process) : pidOrdered (sortByPid l) :=
  sortKey_pairwise (fun p => p.pid) l

/-- C10: every scheduler re-sorts its records by pid before emitting them
(`printResults`), so the emitted record list is ordered by ascending pid
for every valid input, whatever the dispatch order was. -/
theorem C10_records_pid_ordered (procs : List Process) (quantum : Int)
    (hv : ValidInput procs) (hq : 0 < quantum) :
    pidOrdered (FCFS procs).procs ∧ pidOrdered (SJF procs).procs ∧
    pidOrdered (PriorityScheduling procs).procs ∧
    pidOrdered (SRTF procs).procs ∧
    pidOrdered (RoundRobin procs quantum).procs :=
  ⟨sortByPid_ordered _, sortByPid_ordered _, sortByPid_ordered _,
   sortByPid_ordered _, sortByPid_ordered _⟩

/-- Witness for C10 on scenario S1 with quantum 2. -/
theorem C10_witness :
    ValidInput s1Procs ∧ (0 : Int) < 2 ∧ pidOrdered (FCFS s1Procs).procs :=
  ⟨by decide, by decide,
   (C10_records_pid_ordered s1Procs 2 (by decide) (by decide)).1⟩

/-!  ## FCFS order (C5)  -/

theorem mem_insertAP {p x : Process} {l : List Process} :
    x ∈ insertAP p l ↔ x = p ∨ x ∈ l := by
  induction l with
  | nil => simp [insertAP]
  | cons q rest ih =>
    by_cases h : lexLtAP p q
    · simp [insertAP, h]
    · simp only [insertAP, if_neg h, List.mem_cons, ih]
      tauto

theorem insertKey_arrival_eq_insertAP (p : Process) :
    ∀ (l : List Process), (∀ q ∈ l, q.pid < p.pid) →
      insertKey (fun r => r.arrival) p l = insertAP p l := by
  intro l
  induction l with
  | nil => intro _; simp [insertKey, insertAP]
  | cons q rest ih =>
    intro h
    have hq : q.pid < p.pid := h q (List.mem_cons_self q rest)
    have hiff : lexLtAP p q ↔ p.arrival < q.arrival := by
      unfold lexLtAP
      constructor
      · rintro (ha | ⟨_, hp⟩)
        · exact ha
        · exact absurd hp (by omega)
      · intro ha; exact Or.inl ha
    by_cases ha : p.arrival < q.arrival
    · simp [insertKey, insertAP, ha, hiff.mpr ha]
    · have hnl : ¬ lexLtAP p q := fun hl => ha (hiff.mp hl)
      simp only [insertKey, if_neg ha, insertAP, if_neg hnl]
      rw [ih (fun r hr => h r (List.mem_cons_of_mem q hr))]

theorem sortByArrival_eq_sortByArrivalPid :
    ∀ (l acc : List Process), l.Pairwise (fun a b => a.pid < b.pid) →
      (∀ q ∈ l, ∀ x ∈ acc, x.pid < q.pid) →
      l.foldl (fun a p => insertKey (fun r => r.arrival) p a) acc =
        l.foldl (fun a p => insertAP p a) acc := by
  intro l
  induction l with
  | nil => intro acc _ _; rfl
  | cons p rest ih =>
    intro acc hl hacc
    rw [List.pairwise_cons] at hl
    simp only [List.foldl_cons]
    rw [insertKey_arrival_eq_insertAP p acc
      (hacc p (List.mem_cons_self p rest))]
    refine ih (insertAP p acc) hl.2 ?_
    intro q hq x hx
    rcases mem_insertAP.mp hx with rfl | hx
    · exact hl.1 q hq
    · exact hacc q (List.mem_cons_of_mem p hq) x hx

theorem valid_pids_strict_mono {procs : List Process} (h : ValidInput procs) :
    procs.Pairwise (fun a b => a.pid < b.pid) := by
  rw [List.pairwise_iff_get]
  intro i j hij
  have hi := (h.2 i i.isLt).1
  have hj := (h.2 j j.isLt).1
  rw [hi, hj]
  have : (i : Nat) < (j : Nat) := hij
  omega

theorem fcfsRun_blocks_filter :
    ∀ (l : List Process) (time : Int) (tl : List Int) (bl : List Blk),
      ((fcfsRun l time tl bl).2.2.2).filter (fun b => !(Blk.isIdle b)) =
        bl.filter (fun b => !(Blk.isIdle b)) ++
          l.map (fun p => Blk.proc p.pid) := by
  intro l
  induction l with
  | nil => intro time tl bl; simp [fcfsRun]
  | cons p rest ih =>
    intro time tl bl
    simp only [fcfsRun]
    by_cases h : time < p.arrival
    · simp only [if_pos h]
      rw [ih]
      simp [List.filter_append, Blk.isIdle]
    · simp only [if_neg h]
      rw [ih]
      simp [List.filter_append, Blk.isIdle]

theorem valid_pids_nodup {procs : List Process} (h : ValidInput procs) :
    (procs.map (fun p => p.pid)).Nodup := by
  have hm := valid_pids_strict_mono h
  have : (procs.map (fun p => p.pid)).Pairwise (fun a b => a < b) :=
    List.Pairwise.map _ (fun a b hab => hab) hm
  exact this.imp (fun hab => ne_of_lt hab)

/-- The stable arrival sort orders ties by ascending pid when pids are
assigned by input position: the stable `std::sort` outcome coincides with
the spec-side `(arrival, pid)` sort. -/
theorem sortByArrival_stable_eq (procs : List Process) (hv : ValidInput procs) :
    sortByArrival procs = sortByArrivalPid procs := by
  unfold sortByArrival sortKey sortByArrivalPid
  exact sortByArrival_eq_sortByArrivalPid procs []
    (valid_pids_strict_mono hv) (by simp)

/-- C5: the FCFS arrival sort is `std::sort`, which guarantees only *some*
arrival-sorted permutation of the input — the C++ standard leaves the
order of arrival ties unspecified, and libstdc++'s introsort really does
permute tied elements once the range exceeds its insertion-sort threshold
of 16.  On the 17-process all-tied input `c5Procs` the conforming outcome
`c5Perm` makes FCFS run pid 2 before pid 1, so the execution order is not
the claimed input-sorted-by-(arrival, pid) order; the embedding's `FCFS`
fixes the stable outcome, under which the claimed order does occur. -/
theorem C5_fcfs_execution_order :
    ValidInput c5Procs ∧ c5Perm.Perm c5Procs ∧ arrivalsSorted c5Perm ∧
    FCFS c5Procs = fcfsFrom (sortByArrival c5Procs) ∧
    nonIdleBlocks (fcfsFrom c5Perm) = c5Perm.map (fun p => Blk.proc p.pid) ∧
    nonIdleBlocks (fcfsFrom c5Perm) ≠
      (sortByArrivalPid c5Procs).map (fun p => Blk.proc p.pid) :=
  ⟨by decide, by decide, by decide, rfl, by decide, by decide⟩

/-!  ## Selection-scan lemmas  -/

theorem lexLe3_refl (k t : Int) (i : Nat) : lexLe3 k t i k t i := by
  unfold lexLe3; omega

theorem lexLe3_trans {k1 t1 i1 k2 t2 i2 k3 t3 i3}
    (h1 : lexLe3 k1 t1 i1 k2 t2 i2) (h2 : lexLe3 k2 t2 i2 k3 t3 i3) :
    lexLe3 k1 t1 i1 k3 t3 i3 := by
  unfold lexLe3 at h1 h2 ⊢; omega

theorem pickStep_cases {α : Type} {elig : α → Bool} {key tie : α → Int}
    {i : Nat} {best : Option (Nat × α)} {x : α} {j : Nat} {y : α}
    (h : pickStep elig key tie i best x = some (j, y)) :
    best = some (j, y) ∨ (elig x = true ∧ j = i ∧ y = x) := by
  by_cases hx : elig x = true
  · cases best with
    | none =>
      by_cases hk : key x < INT_MAX
      · simp [pickStep, hx, hk] at h
        exact Or.inr ⟨hx, h.1.symm, h.2.symm⟩
      · simp [pickStep, hx, hk] at h
    | some b =>
      obtain ⟨j0, y0⟩ := b
      by_cases h1 : key x < key y0
      · simp [pickStep, hx, h1] at h
        exact Or.inr ⟨hx, h.1.symm, h.2.symm⟩
      · by_cases h2 : key x = key y0 ∧ tie x < tie y0
        · simp [pickStep, hx, h1, h2] at h
          exact Or.inr ⟨hx, h.1.symm, h.2.symm⟩
        · simp [pickStep, hx, h1, h2] at h
          exact Or.inl (by rw [h.1, h.2])
  · simp [pickStep, hx] at h
    exact Or.inl h

theorem pickStep_isSome_of_best {α : Type} {elig : α → Bool}
    {key tie : α → Int} {i : Nat} {x : α} (b : Nat × α) :
    (pickStep elig key tie i (some b) x).isSome := by
  obtain ⟨j0, y0⟩ := b
  by_cases hx : elig x = true
  · by_cases h1 : key x < key y0
    · simp [pickStep, hx, h1]
    · by_cases h2 : key x = key y0 ∧ tie x < tie y0
      · simp [pickStep, hx, h1, h2]
      · simp [pickStep, hx, h1, h2]
  · simp [pickStep, hx]

theorem pickStep_isSome_of_elig {α : Type} {elig : α → Bool}
    {key tie : α → Int} {i : Nat} {best : Option (Nat × α)} {x : α}
    (hx : elig x = true) (hk : key x < INT_MAX) :
    (pickStep elig key tie i best x).isSome := by
  cases best with
  | none => simp [pickStep, hx, hk]
  | some b => exact pickStep_isSome_of_best b

/-- Full case analysis of one scan step: either the old best is kept and,
when the scanned element is eligible with its key below the sentinel, the
kept best dominates it, or the scanned element is eligible with key below
the sentinel, becomes the best, and dominates the old best. -/
theorem pickStep_spec {α : Type} {elig : α → Bool} {key tie : α → Int}
    (i : Nat) (best : Option (Nat × α)) (x : α)
    (hbest : ∀ j0 y0, best = some (j0, y0) →
      j0 < i ∧ elig y0 = true ∧ key y0 < INT_MAX) :
    (pickStep elig key tie i best x = best ∧
      (elig x = true → key x < INT_MAX → ∃ j0 y0, best = some (j0, y0) ∧
        lexLe3 (key y0) (tie y0) j0 (key x) (tie x) i)) ∨
    (elig x = true ∧ key x < INT_MAX ∧
      pickStep elig key tie i best x = some (i, x) ∧
      (∀ j0 y0, best = some (j0, y0) →
        lexLe3 (key x) (tie x) i (key y0) (tie y0) j0)) := by
  by_cases hx : elig x = true
  · cases best with
    | none =>
      by_cases hk : key x < INT_MAX
      · refine Or.inr ⟨hx, hk, by simp [pickStep, hx, hk], ?_⟩
        intro j0 y0 h0
        cases h0
      · refine Or.inl ⟨by simp [pickStep, hx, hk], ?_⟩
        intro _ hk2
        exact absurd hk2 hk
    | some b =>
      obtain ⟨j0, y0⟩ := b
      have hy0k : key y0 < INT_MAX := (hbest j0 y0 rfl).2.2
      by_cases h1 : key x < key y0
      · refine Or.inr ⟨hx, by omega, by simp [pickStep, hx, h1], ?_⟩
        intro j1 y1 h0
        cases h0
        unfold lexLe3
        omega
      · by_cases h2 : key x = key y0 ∧ tie x < tie y0
        · refine Or.inr ⟨hx, by omega, by simp [pickStep, hx, h1, h2], ?_⟩
          intro j1 y1 h0
          cases h0
          unfold lexLe3
          omega
        · refine Or.inl ⟨by simp [pickStep, hx, h1, h2], ?_⟩
          intro _ _
          refine ⟨j0, y0, rfl, ?_⟩
          have hj0 := (hbest j0 y0 rfl).1
          rw [not_and_or] at h2
          unfold lexLe3
          rcases h2 with h2 | h2 <;> omega
  · exact Or.inl ⟨by simp [pickStep, hx], fun hc => absurd hc hx⟩

theorem scanPick_isSome_of_best {α : Type} {elig : α → Bool}
    {key tie : α → Int} :
    ∀ (l : List α) (i : Nat) (b : Nat × α),
      (scanPick elig key tie i (some b) l).isSome := by
  intro l
  induction l with
  | nil => intro i b; simp [scanPick]
  | cons x rest ih =>
    intro i b
    simp only [scanPick]
    obtain ⟨b1, hb1⟩ := Option.isSome_iff_exists.mp
      (@pickStep_isSome_of_best α elig key tie i x b)
    rw [hb1]
    exact ih (i+1) b1

theorem scanPick_isSome_of_mem {α : Type} {elig : α → Bool}
    {key tie : α → Int} :
    ∀ (l : List α) (i : Nat) (best : Option (Nat × α)) (x : α),
      x ∈ l → elig x = true → key x < INT_MAX →
      (scanPick elig key tie i best l).isSome := by
  intro l
  induction l with
  | nil => intro i best x hx; simp at hx
  | cons x0 rest ih =>
    intro i best x hx helig hkey
    simp only [scanPick]
    rcases List.mem_cons.mp hx with rfl | hx
    · obtain ⟨b1, hb1⟩ := Option.isSome_iff_exists.mp
        (@pickStep_isSome_of_elig α elig key tie i best x helig hkey)
      rw [hb1]
      exact scanPick_isSome_of_best rest (i+1) b1
    · exact ih (i+1) _ x hx helig hkey

/-- When the scan selects nothing, every eligible element has its key at
the `INT_MAX` sentinel (in particular, with all keys below `INT_MAX`,
nothing is eligible). -/
theorem scanPick_none_no_elig {α : Type} {elig : α → Bool}
    {key tie : α → Int} {l : List α} {i : Nat} {best : Option (Nat × α)}
    (h : scanPick elig key tie i best l = none) :
    ∀ x ∈ l, elig x = true → INT_MAX ≤ key x := by
  intro x hx helig
  rcases lt_or_ge (key x) INT_MAX with hk | hk
  · exfalso
    have hs := @scanPick_isSome_of_mem _ elig key tie l i best x hx helig hk
    rw [h] at hs
    simp at hs
  · exact hk

/-- The scan result is the old best or an eligible list element at its
position. -/
theorem scanPick_origin {α : Type} {elig : α → Bool} {key tie : α → Int} :
    ∀ (l : List α) (i : Nat) (best : Option (Nat × α)) (j : Nat) (x : α),
      scanPick elig key tie i best l = some (j, x) →
      best = some (j, x) ∨
        ∃ k, l.get? k = some x ∧ j = i + k ∧ elig x = true := by
  intro l
  induction l with
  | nil =>
    intro i best j x h
    simp only [scanPick] at h
    exact Or.inl h
  | cons x0 rest ih =>
    intro i best j x h
    simp only [scanPick] at h
    rcases ih (i+1) _ j x h with hbest | ⟨k, hk, hj, he⟩
    · rcases pickStep_cases hbest with h1 | ⟨he, hj, hy⟩
      · exact Or.inl h1
      · subst hj
        subst hy
        exact Or.inr ⟨0, by simp, by simp, he⟩
    · exact Or.inr ⟨k + 1, by simpa using hk, by omega, he⟩

/-- The scan result is eligible, has its key below the sentinel, and is
lexicographically minimal (key, then tie, then scan position) among the
old best and all eligible elements. -/
theorem scanPick_min {α : Type} {elig : α → Bool} {key tie : α → Int} :
    ∀ (l : List α) (i : Nat) (best : Option (Nat × α)),
      (∀ j0 y0, best = some (j0, y0) →
        j0 < i ∧ elig y0 = true ∧ key y0 < INT_MAX) →
      ∀ j x, scanPick elig key tie i best l = some (j, x) →
        elig x = true ∧ key x < INT_MAX ∧
        (∀ j0 y0, best = some (j0, y0) →
          lexLe3 (key x) (tie x) j (key y0) (tie y0) j0) ∧
        (∀ k y, l.get? k = some y → elig y = true →
          lexLe3 (key x) (tie x) j (key y) (tie y) (i + k)) := by
  intro l
  induction l with
  | nil =>
    intro i best hbest j x h
    simp only [scanPick] at h
    obtain ⟨hjlt, hex, hxk⟩ := hbest j x h
    refine ⟨hex, hxk, ?_, ?_⟩
    · intro j0 y0 h0
      rw [h] at h0
      cases h0
      exact lexLe3_refl _ _ _
    · intro k y hk
      simp at hk
  | cons x0 rest ih =>
    intro i best hbest j x h
    simp only [scanPick] at h
    rcases pickStep_spec i best x0 hbest with
      ⟨hkeep, hdomx0⟩ | ⟨he0, hk0, hwin, hdomb⟩
    · have hbest1 : ∀ j0 y0, pickStep elig key tie i best x0 = some (j0, y0) →
          j0 < i + 1 ∧ elig y0 = true ∧ key y0 < INT_MAX := by
        intro j0 y0 h0
        rw [hkeep] at h0
        obtain ⟨hlt, he, hky⟩ := hbest j0 y0 h0
        exact ⟨by omega, he, hky⟩
      obtain ⟨hex, hxk, hdomb1, hdomrest⟩ := ih (i+1) _ hbest1 j x h
      rw [hkeep] at hdomb1
      refine ⟨hex, hxk, hdomb1, ?_⟩
      intro k y hky hey
      match k, hky with
      | 0, hky =>
        have hy : x0 = y := by simpa using hky
        subst hy
        by_cases hk : key x0 < INT_MAX
        · obtain ⟨j0, y0, hb0, hd0⟩ := hdomx0 hey hk
          have := hdomb1 j0 y0 hb0
          have := lexLe3_trans this hd0
          simpa using this
        · unfold lexLe3
          omega
      | Nat.succ k, hky =>
        have hky2 : rest.get? k = some y := by simpa using hky
        have := hdomrest k y hky2 hey
        have hik : i + (k + 1) = i + 1 + k := by omega
        rw [hik]
        exact this
    · have hbest1 : ∀ j0 y0, pickStep elig key tie i best x0 = some (j0, y0) →
          j0 < i + 1 ∧ elig y0 = true ∧ key y0 < INT_MAX := by
        intro j0 y0 h0
        rw [hwin] at h0
        cases h0
        exact ⟨by omega, he0, hk0⟩
      obtain ⟨hex, hxk, hdomb1, hdomrest⟩ := ih (i+1) _ hbest1 j x h
      rw [hwin] at hdomb1
      have hdomi : lexLe3 (key x) (tie x) j (key x0) (tie x0) i :=
        hdomb1 i x0 rfl
      refine ⟨hex, hxk, ?_, ?_⟩
      · intro j0 y0 h0
        exact lexLe3_trans hdomi (hdomb j0 y0 h0)
      · intro k y hky hey
        match k, hky with
        | 0, hky =>
          have hy : x0 = y := by simpa using hky
          subst hy
          simpa using hdomi
        | Nat.succ k, hky =>
          have hky2 : rest.get? k = some y := by simpa using hky
          have := hdomrest k y hky2 hey
          have hik : i + (k + 1) = i + 1 + k := by omega
          rw [hik]
          exact this

/-- C6: whenever the SJF selection scan dispatches a process, that process
is eligible (arrived, not completed) and has the minimum burst among all
eligible processes, with ties broken by smaller arrival and then smaller
pid (pids are assigned by input position). -/
theorem C6_sjf_dispatch_minimal (time : Int) (st : List (Process × Bool))
    (hpid : pidIndexed st) (j : Nat) (x : Process × Bool)
    (hpick : npPick btKey time st = some (j, x)) :
    (x.2 = false ∧ x.1.arrival ≤ time) ∧
    ∀ k y, st.get? k = some y → y.2 = false → y.1.arrival ≤ time →
      x.1.bt < y.1.bt ∨ (x.1.bt = y.1.bt ∧ (x.1.arrival < y.1.arrival ∨
        (x.1.arrival = y.1.arrival ∧ x.1.pid ≤ y.1.pid))) := by
  unfold npPick at hpick
  have hmin := scanPick_min st 0 none (by intro j0 y0 h0; cases h0) j x hpick
  have horig := scanPick_origin st 0 none j x hpick
  have helig : x.2 = false ∧ x.1.arrival ≤ time := by
    have := hmin.1
    simp only [Bool.and_eq_true, Bool.not_eq_true', decide_eq_true_eq] at this
    exact this
  refine ⟨helig, ?_⟩
  intro k y hky hyc hya
  have heligy : (fun pc : Process × Bool =>
      !pc.2 && decide (pc.1.arrival ≤ time)) y = true := by
    simp [hyc, hya]
  have hdom := hmin.2.2.2 k y hky heligy
  rcases horig with h0 | ⟨kx, hkx, hjkx, _⟩
  · cases h0
  · have hxpid : x.1.pid = (j : Int) + 1 := by
      obtain ⟨hlt, hget⟩ := List.get?_eq_some.mp hkx
      have := hpid kx hlt
      rw [hget] at this
      omega
    have hypid : y.1.pid = (k : Int) + 1 := by
      obtain ⟨hlt, hget⟩ := List.get?_eq_some.mp hky
      have := hpid k hlt
      rw [hget] at this
      rw [this]
    unfold lexLe3 at hdom
    unfold btKey at hdom
    rw [hxpid, hypid]
    omega

/-!  ## Generic list bookkeeping lemmas  -/

theorem sum_map_set {α : Type} (f : α → Nat) :
    ∀ (l : List α) (i : Nat) (x y : α), l.get? i = some x →
      ((l.set i y).map f).sum + f x = (l.map f).sum + f y := by
  intro l
  induction l with
  | nil => intro i x y h; simp at h
  | cons a rest ih =>
    intro i x y h
    cases i with
    | zero =>
      have hx : a = x := by simpa using h
      subst hx
      simp only [List.set, List.map_cons, List.sum_cons]
      omega
    | succ i =>
      have h2 : rest.get? i = some x := by simpa using h
      have ih2 := ih i x y h2
      simp only [List.set, List.map_cons, List.sum_cons]
      omega

theorem countP_set_eq {α : Type} (pred : α → Bool) :
    ∀ (l : List α) (i : Nat) (x y : α), l.get? i = some x →
      ((l.set i y).countP pred + (if pred x then 1 else 0) =
        l.countP pred + (if pred y then 1 else 0)) := by
  intro l
  induction l with
  | nil => intro i x y h; simp at h
  | cons a rest ih =>
    intro i x y h
    cases i with
    | zero =>
      have hx : a = x := by simpa using h
      subst hx
      simp only [List.set, List.countP_cons]
      omega
    | succ i =>
      have h2 : rest.get? i = some x := by simpa using h
      have ih2 := ih i x y h2
      simp only [List.set, List.countP_cons]
      omega

theorem countP_lt_exists {α : Type} {pred : α → Bool} {l : List α}
    (h : l.countP pred < l.length) : ∃ x ∈ l, pred x = false := by
  by_contra hc
  push_neg at hc
  have : ∀ x ∈ l, pred x = true := by
    intro x hx
    cases hp : pred x with
    | false => exact absurd hp (hc x hx)
    | true => rfl
  rw [List.countP_eq_length.mpr this] at h
  omega

theorem get?_some_getElem {α : Type} {l : List α} {i : Nat} {x : α}
    (h : l.get? i = some x) : ∃ hi : i < l.length, l[i] = x := by
  obtain ⟨hi, hg⟩ := List.get?_eq_some.mp h
  exact ⟨hi, hg⟩

/-!  ## Lemmas about the sentinel-free minimum folds  -/

theorem optMinFold_cons {α : Type} (cond : α → Bool) (val : α → Int)
    (x : α) (l : List α) (acc : Option Int) :
    optMinFold cond val (x :: l) acc =
      optMinFold cond val l
        (if cond x then
          some (match acc with
                | none => val x
                | some m => min m (val x))
         else acc) := rfl

theorem optMinFold_isSome_acc {α : Type} (cond : α → Bool) (val : α → Int) :
    ∀ (l : List α) (m : Int),
      (optMinFold cond val l (some m)).isSome := by
  intro l
  induction l with
  | nil => intro m; simp [optMinFold]
  | cons x rest ih =>
    intro m
    rw [optMinFold_cons]
    by_cases hx : cond x = true
    · simp only [hx, if_true]
      exact ih _
    · simp only [hx, if_false, Bool.false_eq_true]
      exact ih m

theorem optMinFold_isSome_of {α : Type} {cond : α → Bool} {val : α → Int} :
    ∀ (l : List α) (acc : Option Int) (x : α), x ∈ l → cond x = true →
      (optMinFold cond val l acc).isSome := by
  intro l
  induction l with
  | nil => intro acc x hx; simp at hx
  | cons x0 rest ih =>
    intro acc x hx hc
    rw [optMinFold_cons]
    rcases List.mem_cons.mp hx with rfl | hx
    · simp only [hc, if_true]
      cases acc <;> exact optMinFold_isSome_acc cond val rest _
    · by_cases h0 : cond x0 = true
      · simp only [h0, if_true]
        cases acc <;> exact optMinFold_isSome_acc cond val rest _
      · simp only [h0, if_false, Bool.false_eq_true]
        exact ih acc x hx hc

theorem optMinFold_mem {α : Type} {cond : α → Bool} {val : α → Int} :
    ∀ (l : List α) (acc : Option Int) (m : Int),
      optMinFold cond val l acc = some m →
      acc = some m ∨ ∃ x ∈ l, cond x = true ∧ val x = m := by
  intro l
  induction l with
  | nil => intro acc m h; exact Or.inl h
  | cons x0 rest ih =>
    intro acc m h
    rw [optMinFold_cons] at h
    by_cases h0 : cond x0 = true
    · simp only [h0, if_true] at h
      rcases ih _ m h with hacc | ⟨x, hx, hcx, hvx⟩
      · cases acc with
        | none =>
          have : val x0 = m := by simpa using hacc
          exact Or.inr ⟨x0, List.mem_cons_self x0 rest, h0, this⟩
        | some a =>
          have hmin : min a (val x0) = m := by simpa using hacc
          rcases min_cases a (val x0) with ⟨heq, _⟩ | ⟨heq, _⟩
          · exact Or.inl (by rw [← hmin, heq])
          · exact Or.inr ⟨x0, List.mem_cons_self x0 rest, h0, by omega⟩
      · exact Or.inr ⟨x, List.mem_cons_of_mem x0 hx, hcx, hvx⟩
    · simp only [h0, if_false, Bool.false_eq_true] at h
      rcases ih _ m h with hacc | ⟨x, hx, hcx, hvx⟩
      · exact Or.inl hacc
      · exact Or.inr ⟨x, List.mem_cons_of_mem x0 hx, hcx, hvx⟩

theorem optMinFold_le {α : Type} {cond : α → Bool} {val : α → Int} :
    ∀ (l : List α) (acc : Option Int) (m : Int),
      optMinFold cond val l acc = some m →
      (∀ a, acc = some a → m ≤ a) ∧
      (∀ x ∈ l, cond x = true → m ≤ val x) := by
  intro l
  induction l with
  | nil =>
    intro acc m h
    have hacc : acc = some m := by simpa [optMinFold] using h
    refine ⟨?_, ?_⟩
    · intro a ha
      rw [hacc] at ha
      injection ha with ha2
      omega
    · intro x hx
      simp at hx
  | cons x0 rest ih =>
    intro acc m h
    rw [optMinFold_cons] at h
    by_cases h0 : cond x0 = true
    · simp only [h0, if_true] at h
      have hih := ih _ m h
      refine ⟨?_, ?_⟩
      · intro a ha
        subst ha
        have := hih.1 (min a (val x0)) rfl
        have := min_le_left a (val x0)
        omega
      · intro x hx hcx
        rcases List.mem_cons.mp hx with rfl | hx
        · cases acc with
          | none => exact hih.1 (val x) rfl
          | some a =>
            have := hih.1 (min a (val x)) rfl
            have := min_le_right a (val x)
            omega
        · exact hih.2 x hx hcx
    · simp only [h0, if_false, Bool.false_eq_true] at h
      have hih := ih _ m h
      refine ⟨hih.1, ?_⟩
      intro x hx hcx
      rcases List.mem_cons.mp hx with rfl | hx
      · exact absurd hcx (by simp [h0])
      · exact hih.2 x hx hcx

/-!  ## FCFS metrics (C7, C9)  -/

theorem fcfsRun_metrics :
    ∀ (l : List Process) (time : Int) (tl : List Int) (bl : List Blk),
      (∀ p ∈ l, p.rem_bt = p.bt) →
      ∀ p ∈ (fcfsRun l time tl bl).1, MetricsOk p ∧ p.rem_bt = p.bt := by
  intro l
  induction l with
  | nil => intro time tl bl _ p hp; simp [fcfsRun] at hp
  | cons q rest ih =>
    intro time tl bl hrem p hp
    simp only [fcfsRun, List.mem_cons] at hp
    rcases hp with rfl | hp
    · have hq : q.rem_bt = q.bt := hrem q (List.mem_cons_self q rest)
      constructor
      · unfold MetricsOk
        simp only
        by_cases h : time < q.arrival <;> simp [h] <;> omega
      · simpa using hq
    · exact ih _ _ _ (fun r hr => hrem r (List.mem_cons_of_mem q hr)) p hp

/-- Every record emitted by the FCFS run over any permutation `l` of a
valid input (in particular over any conforming `std::sort` outcome) has
its metrics set and `rem_bt` untouched. -/
theorem FCFS_all_metrics (procs l : List Process) (hv : ValidInput procs)
    (hl : l.Perm procs) :
    ∀ p ∈ (fcfsFrom l).procs, MetricsOk p ∧ p.rem_bt = p.bt := by
  intro p hp
  have hmem : p ∈ (fcfsRun l 0 [0] []).1 :=
    (sortKey_perm (fun r => r.pid) _).mem_iff.mp hp
  refine fcfsRun_metrics _ 0 [0] [] ?_ p hmem
  intro r hr
  have hr2 : r ∈ procs := hl.mem_iff.mp hr
  obtain ⟨i, hi⟩ := List.mem_iff_get?.mp hr2
  obtain ⟨hlt, hget⟩ := List.get?_eq_some.mp hi
  have := (hv.2 i hlt).2.2.2.2.1
  rw [hget] at this
  exact this

/-!  ## Non-preemptive loop: invariant and termination (C7, C9)  -/

theorem intMinFold_cons {α : Type} (cond : α → Bool) (val : α → Int)
    (x : α) (rest : List α) (acc : Int) :
    intMinFold cond val (x :: rest) acc =
      intMinFold cond val rest (if cond x then min acc (val x) else acc) :=
  rfl

theorem intMinFold_le_acc {α : Type} (cond : α → Bool) (val : α → Int) :
    ∀ (l : List α) (acc : Int), intMinFold cond val l acc ≤ acc := by
  intro l
  induction l with
  | nil => intro acc; exact le_refl _
  | cons x rest ih =>
    intro acc
    rw [intMinFold_cons]
    by_cases hc : cond x = true
    · rw [if_pos hc]
      exact le_trans (ih _) (min_le_left _ _)
    · rw [if_neg hc]
      exact ih acc

theorem intMinFold_le {α : Type} {cond : α → Bool} {val : α → Int} :
    ∀ (l : List α) (acc : Int) (x : α), x ∈ l → cond x = true →
      intMinFold cond val l acc ≤ val x := by
  intro l
  induction l with
  | nil => intro acc x hx; simp at hx
  | cons x0 rest ih =>
    intro acc x hx hc
    rw [intMinFold_cons]
    rcases List.mem_cons.mp hx with rfl | hx2
    · rw [if_pos hc]
      exact le_trans (intMinFold_le_acc _ _ _ _) (min_le_right _ _)
    · by_cases hc0 : cond x0 = true
      · rw [if_pos hc0]
        exact ih _ x hx2 hc
      · rw [if_neg hc0]
        exact ih _ x hx2 hc

theorem intMinFold_mem {α : Type} {cond : α → Bool} {val : α → Int} :
    ∀ (l : List α) (acc : Int),
      intMinFold cond val l acc = acc ∨
        ∃ x ∈ l, cond x = true ∧ intMinFold cond val l acc = val x := by
  intro l
  induction l with
  | nil => intro acc; exact Or.inl rfl
  | cons x0 rest ih =>
    intro acc
    rw [intMinFold_cons]
    by_cases hc : cond x0 = true
    · rw [if_pos hc]
      rcases ih (min acc (val x0)) with h | ⟨x, hx, hcx, hvx⟩
      · rcases min_cases acc (val x0) with ⟨hm, _⟩ | ⟨hm, _⟩
        · exact Or.inl (h.trans hm)
        · exact Or.inr ⟨x0, List.mem_cons_self x0 rest, hc, h.trans hm⟩
      · exact Or.inr ⟨x, List.mem_cons_of_mem x0 hx, hcx, hvx⟩
    · rw [if_neg hc]
      rcases ih acc with h | ⟨x, hx, hcx, hvx⟩
      · exact Or.inl h
      · exact Or.inr ⟨x, List.mem_cons_of_mem x0 hx, hcx, hvx⟩

theorem npPick_spec {key : Process → Int} {time : Int}
    {st : List (Process × Bool)} {i : Nat} {pc : Process × Bool}
    (h : npPick key time st = some (i, pc)) :
    st.get? i = some pc ∧ pc.2 = false ∧ pc.1.arrival ≤ time := by
  unfold npPick at h
  rcases scanPick_origin st 0 none i pc h with h0 | ⟨k, hk, hik, he⟩
  · cases h0
  · have hik0 : i = k := by omega
    subst hik0
    simp only [Bool.and_eq_true, Bool.not_eq_true', decide_eq_true_eq] at he
    exact ⟨hk, he.1, he.2⟩

theorem npPick_isSome {key : Process → Int} {time : Int}
    {st : List (Process × Bool)} {pc : Process × Bool}
    (hmem : pc ∈ st) (hflag : pc.2 = false) (harr : pc.1.arrival ≤ time)
    (hkey : key pc.1 < INT_MAX) :
    (npPick key time st).isSome := by
  unfold npPick
  refine scanPick_isSome_of_mem st 0 none pc hmem ?_ hkey
  simp [hflag, harr]

theorem npLoop_complete (key : Process → Int)
    (hkeyfix : ∀ (p : Process) (c t w : Int),
      key { p with ct := c, tat := t, wt := w } = key p) :
    ∀ (fuel : Nat) (time : Int) (cnt : Nat) (st : List (Process × Bool))
      (tl : List Int) (bl : List Blk),
      cnt = st.countP (fun pc => pc.2) →
      (∀ pc ∈ st, pc.2 = true → MetricsOk pc.1) →
      (∀ pc ∈ st, pc.1.rem_bt = pc.1.bt) →
      (∀ pc ∈ st, key pc.1 < INT_MAX ∧ pc.1.arrival < INT_MAX) →
      2 * (st.length - cnt) ≤ fuel →
      ∀ pc ∈ (npLoop key fuel time cnt st tl bl).1,
        pc.2 = true ∧ MetricsOk pc.1 ∧ pc.1.rem_bt = pc.1.bt := by
  intro fuel
  induction fuel using Nat.strong_induction_on with
  | _ fuel IH =>
    intro time cnt st tl bl hcnt hM hrem hbound hfuel
    have hdoneCase : st.length ≤ cnt →
        ∀ pc ∈ st, pc.2 = true ∧ MetricsOk pc.1 ∧ pc.1.rem_bt = pc.1.bt := by
      intro hge pc hpc
      have hle : st.countP (fun pc => pc.2) = st.length := by
        have := @List.countP_le_length (Process × Bool) (fun pc => pc.2) st
        omega
      have hall := List.countP_eq_length.mp hle
      exact ⟨hall pc hpc, hM pc hpc (hall pc hpc), hrem pc hpc⟩
    cases fuel with
    | zero =>
      simp only [npLoop]
      exact hdoneCase (by omega)
    | succ fuel =>
      by_cases hlt : cnt < st.length
      · cases hpick : npPick key time st with
        | some ip =>
          obtain ⟨i, pc⟩ := ip
          obtain ⟨hget, hflag, harr⟩ := npPick_spec hpick
          obtain ⟨hilt, hieq⟩ := get?_some_getElem hget
          have hpcmem : pc ∈ st := List.get?_mem hget
          simp only [npLoop, if_pos hlt, hpick]
          refine IH fuel (by omega) (time + pc.1.bt) (cnt + 1)
            (st.set i ({ pc.1 with ct := time + pc.1.bt, tat := time + pc.1.bt - pc.1.arrival, wt := time + pc.1.bt - pc.1.arrival - pc.1.bt }, true))
            (tl ++ [time + pc.1.bt]) (bl ++ [Blk.proc pc.1.pid]) ?_ ?_ ?_ ?_ ?_
          · rw [List.countP_set _ st i _ hilt, hieq]
            simp [hflag]
            omega
          · intro pc3 hpc3 hflag3
            rcases List.mem_or_eq_of_mem_set hpc3 with hmem | rfl
            · exact hM pc3 hmem hflag3
            · simp [MetricsOk]
              omega
          · intro pc3 hpc3
            rcases List.mem_or_eq_of_mem_set hpc3 with hmem | rfl
            · exact hrem pc3 hmem
            · simpa using hrem pc hpcmem
          · intro pc3 hpc3
            rcases List.mem_or_eq_of_mem_set hpc3 with hmem | rfl
            · exact hbound pc3 hmem
            · refine ⟨?_, ?_⟩
              · rw [hkeyfix]
                exact (hbound pc hpcmem).1
              · exact show pc.1.arrival < INT_MAX from (hbound pc hpcmem).2
          · rw [List.length_set]
            omega
        | none =>
          by_cases hna : npNextArrival st = INT_MAX
          · exfalso
            obtain ⟨x, hx, hxflag⟩ := countP_lt_exists (by omega :
              st.countP (fun pc => pc.2) < st.length)
            have hle : npNextArrival st ≤ x.1.arrival :=
              @intMinFold_le (Process × Bool) (fun pc => !pc.2)
                (fun pc => pc.1.arrival) st INT_MAX x hx (by simp [hxflag])
            have harrb := (hbound x hx).2
            rw [hna] at hle
            omega
          · simp only [npLoop, if_pos hlt, hpick]
            rw [if_pos hna]
            have hprog : ∃ x ∈ st, x.2 = false ∧
                x.1.arrival = npNextArrival st := by
              rcases @intMinFold_mem (Process × Bool) (fun pc => !pc.2)
                (fun pc => pc.1.arrival) st INT_MAX with hacc | ⟨x, hx, hcx, hvx⟩
              · exact absurd hacc hna
              · exact ⟨x, hx, by simpa using hcx, hvx.symm⟩
            obtain ⟨x, hx, hxflag, hxarr⟩ := hprog
            obtain ⟨fuel2, rfl⟩ : ∃ f2, fuel = f2 + 1 := ⟨fuel - 1, by omega⟩
            have hsome : (npPick key (npNextArrival st) st).isSome :=
              npPick_isSome hx hxflag (le_of_eq hxarr) (hbound x hx).1
            cases hpick2 : npPick key (npNextArrival st) st with
            | none =>
              rw [hpick2] at hsome
              simp at hsome
            | some ip2 =>
              obtain ⟨i2, pc2⟩ := ip2
              obtain ⟨hget2, hflag2, harr2⟩ := npPick_spec hpick2
              obtain ⟨hilt2, hieq2⟩ := get?_some_getElem hget2
              have hpc2mem : pc2 ∈ st := List.get?_mem hget2
              simp only [npLoop, if_pos hlt, hpick2]
              refine IH fuel2 (by omega) (npNextArrival st + pc2.1.bt) (cnt + 1)
                (st.set i2 ({ pc2.1 with ct := npNextArrival st + pc2.1.bt, tat := npNextArrival st + pc2.1.bt - pc2.1.arrival, wt := npNextArrival st + pc2.1.bt - pc2.1.arrival - pc2.1.bt }, true))
                (tl ++ [npNextArrival st] ++ [npNextArrival st + pc2.1.bt])
                (bl ++ [Blk.idle] ++ [Blk.proc pc2.1.pid]) ?_ ?_ ?_ ?_ ?_
              · rw [List.countP_set _ st i2 _ hilt2, hieq2]
                simp [hflag2]
                omega
              · intro pc3 hpc3 hflag3
                rcases List.mem_or_eq_of_mem_set hpc3 with hmem | rfl
                · exact hM pc3 hmem hflag3
                · simp [MetricsOk]
                  omega
              · intro pc3 hpc3
                rcases List.mem_or_eq_of_mem_set hpc3 with hmem | rfl
                · exact hrem pc3 hmem
                · simpa using hrem pc2 hpc2mem
              · intro pc3 hpc3
                rcases List.mem_or_eq_of_mem_set hpc3 with hmem | rfl
                · exact hbound pc3 hmem
                · refine ⟨?_, ?_⟩
                  · rw [hkeyfix]
                    exact (hbound pc2 hpc2mem).1
                  · exact show pc2.1.arrival < INT_MAX from
                      (hbound pc2 hpc2mem).2
              · rw [List.length_set]
                omega
      · simp only [npLoop, if_neg hlt]
        exact hdoneCase (by omega)

theorem valid_mem {procs : List Process} (hv : ValidInput procs) :
    ∀ p ∈ procs, 0 ≤ p.arrival ∧ 0 < p.bt ∧ p.rem_bt = p.bt := by
  intro p hp
  obtain ⟨i, hi⟩ := List.mem_iff_get?.mp hp
  obtain ⟨hlt, hget⟩ := List.get?_eq_some.mp hi
  have h := hv.2 i hlt
  rw [hget] at h
  exact ⟨h.2.1, h.2.2.1, h.2.2.2.2.1⟩

theorem npRun_all_metrics (key : Process → Int)
    (hkeyfix : ∀ (p : Process) (c t w : Int),
      key { p with ct := c, tat := t, wt := w } = key p)
    (procs : List Process) (hv : ValidInput procs)
    (hb : ∀ p ∈ procs, key p < INT_MAX ∧ p.arrival < INT_MAX) :
    ∀ pc ∈ (npLoop key (npFuel procs.length) 0 0
        (procs.map (fun q => (q, false))) [0] []).1,
      pc.2 = true ∧ MetricsOk pc.1 ∧ pc.1.rem_bt = pc.1.bt := by
  refine npLoop_complete key hkeyfix (npFuel procs.length) 0 0
    (procs.map (fun q => (q, false))) [0] [] ?_ ?_ ?_ ?_ ?_
  · symm
    simp [List.countP_map]
  · intro pc hpc hflag
    obtain ⟨q, _, rfl⟩ := List.mem_map.mp hpc
    simp at hflag
  · intro pc hpc
    obtain ⟨q, hq, rfl⟩ := List.mem_map.mp hpc
    exact (valid_mem hv q hq).2.2
  · intro pc hpc
    obtain ⟨q, hq, rfl⟩ := List.mem_map.mp hpc
    exact hb q hq
  · simp only [npFuel, List.length_map]
    omega

theorem SJF_all_metrics (procs : List Process) (hv : ValidInput procs)
    (hb : ∀ p ∈ procs, p.bt < INT_MAX ∧ p.arrival < INT_MAX) :
    ∀ p ∈ (SJF procs).procs, MetricsOk p ∧ p.rem_bt = p.bt := by
  intro p hp
  have hp2 : p ∈ ((npLoop btKey (npFuel procs.length) 0 0
      (procs.map (fun q => (q, false))) [0] []).1.map (fun pc => pc.1)) :=
    (sortKey_perm (fun r => r.pid) _).mem_iff.mp hp
  obtain ⟨pc, hpc, rfl⟩ := List.mem_map.mp hp2
  have h := npRun_all_metrics btKey (fun p c t w => rfl) procs hv hb pc hpc
  exact ⟨h.2.1, h.2.2⟩

theorem Priority_all_metrics (procs : List Process) (hv : ValidInput procs)
    (hb : ∀ p ∈ procs, p.priority < INT_MAX ∧ p.arrival < INT_MAX) :
    ∀ p ∈ (PriorityScheduling procs).procs, MetricsOk p ∧ p.rem_bt = p.bt := by
  intro p hp
  have hp2 : p ∈ ((npLoop prioKey (npFuel procs.length) 0 0
      (procs.map (fun q => (q, false))) [0] []).1.map (fun pc => pc.1)) :=
    (sortKey_perm (fun r => r.pid) _).mem_iff.mp hp
  obtain ⟨pc, hpc, rfl⟩ := List.mem_map.mp hp2
  have h := npRun_all_metrics prioKey (fun p c t w => rfl) procs hv hb pc hpc
  exact ⟨h.2.1, h.2.2⟩

/-!  ## SRTF loop: invariant and termination (C7, C9)  -/

theorem srtfElig_iff {time : Int} {p : Process} :
    srtfElig time p = true ↔ p.arrival ≤ time ∧ 0 < p.rem_bt := by
  simp [srtfElig]

theorem sumRem_zero {st : List Process} (h0 : sumRem st = 0)
    (hge : ∀ p ∈ st, 0 ≤ p.rem_bt) : ∀ p ∈ st, p.rem_bt = 0 := by
  intro p hp
  have hmem : p.rem_bt.toNat ∈ st.map (fun p => p.rem_bt.toNat) :=
    List.mem_map.mpr ⟨p, hp, rfl⟩
  have := List.sum_eq_zero_iff.mp h0 p.rem_bt.toNat hmem
  have := hge p hp
  omega

theorem srtfPick_spec {time : Int} {st : List Process} {i : Nat} {p : Process}
    (h : scanPick (srtfElig time) (fun p => p.rem_bt) (fun p => p.arrival)
        0 none st = some (i, p)) :
    st.get? i = some p ∧ p.arrival ≤ time ∧ 0 < p.rem_bt := by
  rcases scanPick_origin st 0 none i p h with h0 | ⟨k, hk, hik, he⟩
  · cases h0
  · have hik0 : i = k := by omega
    subst hik0
    exact ⟨hk, srtfElig_iff.mp he⟩

theorem srtfLoop_complete :
    ∀ (fuel : Nat) (time : Int) (cnt : Nat) (st : List Process)
      (tl : List Int) (bl : List Blk) (last : Option Blk),
      cnt = st.countP (fun p => decide (p.rem_bt = 0)) →
      (∀ p ∈ st, 0 < p.bt) →
      (∀ p ∈ st, p.bt < INT_MAX) →
      (∀ p ∈ st, 0 ≤ p.rem_bt ∧ p.rem_bt ≤ p.bt) →
      (∀ p ∈ st, p.rem_bt < p.bt → p.arrival + (p.bt - p.rem_bt) ≤ time) →
      (∀ p ∈ st, p.rem_bt = 0 → MetricsOk p) →
      (2 * sumRem st + 1 ≤ fuel ∨
        (2 * sumRem st ≤ fuel ∧ ∃ x ∈ st, srtfElig time x = true)) →
      ∀ p ∈ (srtfLoop fuel time cnt st tl bl last).1,
        p.rem_bt = 0 ∧ MetricsOk p := by
  intro fuel
  induction fuel using Nat.strong_induction_on with
  | _ fuel IH =>
    intro time cnt st tl bl last hcnt hbt hmax hrange hacct hdone hfuel
    have hallcase : (∀ p ∈ st, p.rem_bt = 0) →
        ∀ p ∈ st, p.rem_bt = 0 ∧ MetricsOk p :=
      fun hall p hp => ⟨hall p hp, hdone p hp (hall p hp)⟩
    cases fuel with
    | zero =>
      simp only [srtfLoop]
      rcases hfuel with hfuel | ⟨hfuel, _⟩
      · omega
      · exact hallcase (sumRem_zero (by omega) (fun p hp => (hrange p hp).1))
    | succ fuel =>
      by_cases hlt : cnt < st.length
      · cases hpick : scanPick (srtfElig time) (fun p => p.rem_bt)
            (fun p => p.arrival) 0 none st with
        | some ip =>
          obtain ⟨i, p⟩ := ip
          obtain ⟨hget, harr, hrembt⟩ := srtfPick_spec hpick
          obtain ⟨hilt, hieq⟩ := get?_some_getElem hget
          have hpmem : p ∈ st := List.get?_mem hget
          have hpbt : 0 < p.bt := hbt p hpmem
          have hprange := hrange p hpmem
          have hpacct := hacct p hpmem
          simp only [srtfLoop, if_pos hlt, hpick]
          by_cases h0 : p.rem_bt - 1 = 0
          · rw [if_pos (show ({ p with rem_bt := p.rem_bt - 1 } : Process).rem_bt = 0 from h0)]
            refine IH fuel (by omega) (time + 1) (cnt + 1) _ _ _ _ ?_ ?_ ?_ ?_ ?_ ?_ ?_
            · have hc := countP_set_eq (fun q => decide (q.rem_bt = 0)) st i p
                ({ p with rem_bt := p.rem_bt - 1, ct := time + 1, tat := time + 1 - p.arrival, wt := time + 1 - p.arrival - p.bt }) hget
              rw [if_neg (show ¬ ((fun q : Process => decide (q.rem_bt = 0)) p = true) by simp only [decide_eq_true_eq]; omega)] at hc
              rw [if_pos (show ((fun q : Process => decide (q.rem_bt = 0)) ({ p with rem_bt := p.rem_bt - 1, ct := time + 1, tat := time + 1 - p.arrival, wt := time + 1 - p.arrival - p.bt } : Process)) = true by simp only [decide_eq_true_eq]; exact h0)] at hc
              omega
            · intro q hq
              rcases List.mem_or_eq_of_mem_set hq with hmem | rfl
              · exact hbt q hmem
              · exact show 0 < p.bt from hpbt
            · intro q hq
              rcases List.mem_or_eq_of_mem_set hq with hmem | rfl
              · exact hmax q hmem
              · exact show p.bt < INT_MAX from hmax p hpmem
            · intro q hq
              rcases List.mem_or_eq_of_mem_set hq with hmem | rfl
              · exact hrange q hmem
              · exact ⟨show (0:Int) ≤ p.rem_bt - 1 by omega,
                       show p.rem_bt - 1 ≤ p.bt by omega⟩
            · intro q hq hql
              rcases List.mem_or_eq_of_mem_set hq with hmem | rfl
              · have := hacct q hmem hql
                omega
              · refine show p.arrival + (p.bt - (p.rem_bt - 1)) ≤ time + 1 from ?_
                rcases eq_or_lt_of_le hprange.2 with heq | hlt2
                · omega
                · have := hpacct hlt2
                  omega
            · intro q hq hq0
              rcases List.mem_or_eq_of_mem_set hq with hmem | rfl
              · exact hdone q hmem hq0
              · have hc1 : p.arrival + p.bt ≤ time + 1 := by
                  rcases eq_or_lt_of_le hprange.2 with heq | hlt2
                  · omega
                  · have := hpacct hlt2
                    omega
                exact show p.arrival + p.bt ≤ time + 1 ∧
                    time + 1 - p.arrival = time + 1 - p.arrival ∧
                    time + 1 - p.arrival - p.bt = time + 1 - p.arrival - p.bt ∧
                    0 ≤ time + 1 - p.arrival - p.bt from ⟨hc1, rfl, rfl, by omega⟩
            · left
              have hsum2 : sumRem (st.set i ({ p with rem_bt := p.rem_bt - 1, ct := time + 1, tat := time + 1 - p.arrival, wt := time + 1 - p.arrival - p.bt } : Process)) + p.rem_bt.toNat = sumRem st + (p.rem_bt - 1).toNat :=
                sum_map_set (fun q => q.rem_bt.toNat) st i p _ hget
              rcases hfuel with hfuel | ⟨hfuel, _⟩ <;> omega
          · rw [if_neg (show ¬ ({ p with rem_bt := p.rem_bt - 1 } : Process).rem_bt = 0 from h0)]
            refine IH fuel (by omega) (time + 1) cnt _ _ _ _ ?_ ?_ ?_ ?_ ?_ ?_ ?_
            · have hc := countP_set_eq (fun q => decide (q.rem_bt = 0)) st i p
                ({ p with rem_bt := p.rem_bt - 1 }) hget
              rw [if_neg (show ¬ ((fun q : Process => decide (q.rem_bt = 0)) p = true) by simp only [decide_eq_true_eq]; omega)] at hc
              rw [if_neg (show ¬ ((fun q : Process => decide (q.rem_bt = 0)) ({ p with rem_bt := p.rem_bt - 1 } : Process) = true) by simp only [decide_eq_true_eq]; exact h0)] at hc
              omega
            · intro q hq
              rcases List.mem_or_eq_of_mem_set hq with hmem | rfl
              · exact hbt q hmem
              · exact show 0 < p.bt from hpbt
            · intro q hq
              rcases List.mem_or_eq_of_mem_set hq with hmem | rfl
              · exact hmax q hmem
              · exact show p.bt < INT_MAX from hmax p hpmem
            · intro q hq
              rcases List.mem_or_eq_of_mem_set hq with hmem | rfl
              · exact hrange q hmem
              · exact ⟨show (0:Int) ≤ p.rem_bt - 1 by omega,
                       show p.rem_bt - 1 ≤ p.bt by omega⟩
            · intro q hq hql
              rcases List.mem_or_eq_of_mem_set hq with hmem | rfl
              · have := hacct q hmem hql
                omega
              · refine show p.arrival + (p.bt - (p.rem_bt - 1)) ≤ time + 1 from ?_
                rcases eq_or_lt_of_le hprange.2 with heq | hlt2
                · omega
                · have := hpacct hlt2
                  omega
            · intro q hq hq0
              rcases List.mem_or_eq_of_mem_set hq with hmem | rfl
              · exact hdone q hmem hq0
              · exact absurd hq0 h0
            · left
              have hsum2 : sumRem (st.set i ({ p with rem_bt := p.rem_bt - 1 } : Process)) + p.rem_bt.toNat = sumRem st + (p.rem_bt - 1).toNat :=
                sum_map_set (fun q => q.rem_bt.toNat) st i p _ hget
              rcases hfuel with hfuel | ⟨hfuel, _⟩ <;> omega
        | none =>
          have hnoelig : ∀ x ∈ st, srtfElig time x = false := by
            intro x hx
            cases he : srtfElig time x with
            | false => rfl
            | true =>
              exfalso
              have h1 := scanPick_none_no_elig hpick x hx he
              have h2 := (hrange x hx).2
              have h3 := hmax x hx
              omega
          cases hna : srtfNextArrival st with
          | some nt =>
            simp only [srtfLoop, if_pos hlt, hpick, hna]
            have hmemnt : ∃ x ∈ st, 0 < x.rem_bt ∧ x.arrival = nt := by
              rcases optMinFold_mem st none nt hna with hacc | ⟨x, hx, hcx, hvx⟩
              · cases hacc
              · exact ⟨x, hx, by simpa using hcx, hvx⟩
            obtain ⟨x, hx, hxrem, hxarr⟩ := hmemnt
            have hntgt : time < nt := by
              have h1 : srtfElig time x = false := hnoelig x hx
              have h2 : ¬ (x.arrival ≤ time ∧ 0 < x.rem_bt) := by
                rw [← srtfElig_iff, h1]
                simp
              omega
            refine IH fuel (by omega) nt cnt st _ _ _ hcnt hbt hmax hrange ?_ hdone ?_
            · intro q hq hql
              have := hacct q hq hql
              omega
            · right
              refine ⟨?_, x, hx, ?_⟩
              · rcases hfuel with hfuel | ⟨hfuel, hex⟩
                · omega
                · obtain ⟨y, hy, hye⟩ := hex
                  rw [hnoelig y hy] at hye
                  cases hye
              · rw [srtfElig_iff]
                exact ⟨le_of_eq hxarr, hxrem⟩
          | none =>
            exfalso
            obtain ⟨y, hy, hyflag⟩ := countP_lt_exists (show
              st.countP (fun p => decide (p.rem_bt = 0)) < st.length by omega)
            have hyrem : 0 < y.rem_bt := by
              have h1 := (hrange y hy).1
              simp only [decide_eq_false_iff_not] at hyflag
              omega
            have hs : (srtfNextArrival st).isSome :=
              optMinFold_isSome_of st none y hy (by simpa using hyrem)
            rw [hna] at hs
            simp at hs
      · simp only [srtfLoop, if_neg hlt]
        refine hallcase ?_
        have hle : st.countP (fun p => decide (p.rem_bt = 0)) = st.length := by
          have := @List.countP_le_length Process
            (fun p => decide (p.rem_bt = 0)) st
          omega
        intro p hp
        simpa using List.countP_eq_length.mp hle p hp

theorem SRTF_all_metrics (procs : List Process) (hv : ValidInput procs)
    (hb : ∀ p ∈ procs, p.bt < INT_MAX) :
    ∀ p ∈ (SRTF procs).procs, p.rem_bt = 0 ∧ MetricsOk p := by
  intro p hp
  have hp2 : p ∈ (srtfLoop (srtfFuel procs) 0 0
      (procs.map (fun q => { q with rem_bt := q.bt })) [0] [] none).1 :=
    (sortKey_perm (fun r => r.pid) _).mem_iff.mp hp
  refine srtfLoop_complete (srtfFuel procs) 0 0
    (procs.map (fun q => { q with rem_bt := q.bt })) [0] [] none
    ?_ ?_ ?_ ?_ ?_ ?_ ?_ p hp2
  · symm
    rw [List.countP_eq_zero]
    intro a ha
    obtain ⟨r, hr, rfl⟩ := List.mem_map.mp ha
    have := (valid_mem hv r hr).2.1
    simp only [decide_eq_true_eq]
    exact show ¬ r.bt = 0 by omega
  · intro a ha
    obtain ⟨r, hr, rfl⟩ := List.mem_map.mp ha
    exact show 0 < r.bt from (valid_mem hv r hr).2.1
  · intro a ha
    obtain ⟨r, hr, rfl⟩ := List.mem_map.mp ha
    exact show r.bt < INT_MAX from hb r hr
  · intro a ha
    obtain ⟨r, hr, rfl⟩ := List.mem_map.mp ha
    have := (valid_mem hv r hr).2.1
    exact ⟨show (0:Int) ≤ r.bt by omega, show r.bt ≤ r.bt from le_refl _⟩
  · intro a ha hlt
    obtain ⟨r, hr, rfl⟩ := List.mem_map.mp ha
    exact absurd (show r.bt < r.bt from hlt) (lt_irrefl _)
  · intro a ha h0
    obtain ⟨r, hr, rfl⟩ := List.mem_map.mp ha
    have := (valid_mem hv r hr).2.1
    exact absurd (show r.bt = 0 from h0) (by omega)
  · left
    have hs : sumRem (procs.map (fun q => { q with rem_bt := q.bt })) =
        (procs.map (fun q => q.bt.toNat)).sum := by
      unfold sumRem
      rw [List.map_map]
      rfl
    rw [hs]
    unfold srtfFuel
    omega

/-!  ## Round Robin: admission characterization  -/

theorem getD_set_self {α : Type} :
    ∀ (l : List α) (i : Nat) (x d : α), i < l.length →
      (l.set i x).getD i d = x := by
  intro l
  induction l with
  | nil => intro i x d h; simp at h
  | cons a rest ih =>
    intro i x d h
    cases i with
    | zero => rfl
    | succ i =>
      have := ih i x d (by simpa using h)
      simpa [List.set] using this

theorem getD_set_other {α : Type} :
    ∀ (l : List α) (i j : Nat) (x d : α), i ≠ j →
      (l.set i x).getD j d = l.getD j d := by
  intro l
  induction l with
  | nil => intro i j x d h; simp
  | cons a rest ih =>
    intro i j x d h
    cases i with
    | zero =>
      cases j with
      | zero => exact absurd rfl h
      | succ j => rfl
    | succ i =>
      cases j with
      | zero => rfl
      | succ j =>
        have := ih i j x d (by omega)
        simpa [List.set] using this

theorem getD_replicate_false :
    ∀ (n j : Nat), (List.replicate n false).getD j false = false := by
  intro n
  induction n with
  | zero => intro j; rfl
  | succ n ih =>
    intro j
    cases j with
    | zero => rfl
    | succ j => simpa [List.replicate] using ih j

theorem set_get?_self {α : Type} :
    ∀ (l : List α) (i : Nat) (x : α), l.get? i = some x → l.set i x = l := by
  intro l
  induction l with
  | nil => intro i x h; simp at h
  | cons a rest ih =>
    intro i x h
    cases i with
    | zero =>
      have : a = x := by simpa using h
      subst this
      rfl
    | succ i =>
      have := ih i x (by simpa using h)
      simp [List.set, this]

theorem arrivalsSorted_get {st : List Process} (hs : arrivalsSorted st)
    {a b : Nat} (hab : a ≤ b) (ha : a < st.length) (hb : b < st.length) :
    (st.get ⟨a, ha⟩).arrival ≤ (st.get ⟨b, hb⟩).arrival := by
  rcases Nat.eq_or_lt_of_le hab with rfl | hlt
  · rfl
  · have hp := List.pairwise_iff_get.mp hs
      ⟨a, by simpa using ha⟩ ⟨b, by simpa using hb⟩ hlt
    simpa [List.get_map] using hp

/-- Full characterization of the admission scan when called at `i = next`
with all positions from `i` on not yet enqueued: it enqueues exactly the
positions of the contiguous run of arrived processes starting at `i`, and
advances `next` to the first later arrival. -/
theorem rrAdmitGo_spec (st : List Process) (time : Int) :
    ∀ (f i : Nat) (inq : List Bool) (q : List Nat),
      st.length ≤ f + i →
      i ≤ st.length →
      inq.length = st.length →
      arrivalsSorted st →
      (∀ j, i ≤ j → j < st.length → inq.getD j false = false) →
      ∃ k,
        i ≤ k ∧ k ≤ st.length ∧
        (rrAdmitGo st time f i inq q i).2.1 = q ++ List.range' i (k - i) ∧
        (rrAdmitGo st time f i inq q i).2.2 = k ∧
        (rrAdmitGo st time f i inq q i).1.length = inq.length ∧
        (∀ j, (rrAdmitGo st time f i inq q i).1.getD j false =
          (inq.getD j false || decide (i ≤ j ∧ j < k))) ∧
        (∀ j, (hj : j < st.length) → i ≤ j → j < k →
          (st.get ⟨j, hj⟩).arrival ≤ time) ∧
        (∀ j, (hj : j < st.length) → k ≤ j →
          time < (st.get ⟨j, hj⟩).arrival) := by
  intro f
  induction f with
  | zero =>
    intro i inq q hfi hile hlen hsort hfresh
    have hieq : i = st.length := by omega
    have hstep : rrAdmitGo st time 0 i inq q i = (inq, q, i) := rfl
    refine ⟨i, le_refl i, by omega, ?_, ?_, ?_, ?_, ?_, ?_⟩
    · rw [hstep]
      simp
    · rw [hstep]
    · rw [hstep]
    · intro j
      rw [hstep]
      rw [decide_eq_false (by omega : ¬ (i ≤ j ∧ j < i))]
      simp
    · intro j hj h1 h2
      omega
    · intro j hj hk
      omega
  | succ f ih =>
    intro i inq q hfi hile hlen hsort hfresh
    cases hget : st.get? i with
    | none =>
      have hieq : i = st.length := by
        have := List.get?_eq_none.mp hget
        omega
      have hstep : rrAdmitGo st time (f+1) i inq q i = (inq, q, i) := by
        simp only [rrAdmitGo, hget]
      refine ⟨i, le_refl i, by omega, ?_, ?_, ?_, ?_, ?_, ?_⟩
      · rw [hstep]
        simp
      · rw [hstep]
      · rw [hstep]
      · intro j
        rw [hstep]
        rw [decide_eq_false (by omega : ¬ (i ≤ j ∧ j < i))]
        simp
      · intro j hj h1 h2
        omega
      · intro j hj hk
        omega
    | some p =>
      have hilt : i < st.length := (List.get?_eq_some.mp hget).1
      have hfi0 : inq.getD i false = false := hfresh i (le_refl i) hilt
      by_cases harr : p.arrival ≤ time
      · have hcond : p.arrival ≤ time ∧ inq.getD i false = false :=
          ⟨harr, hfi0⟩
        have hstep : rrAdmitGo st time (f+1) i inq q i =
            rrAdmitGo st time f (i+1) (inq.set i true) (q ++ [i]) (i+1) := by
          simp only [rrAdmitGo, hget, if_pos hcond]
        have hfresh2 : ∀ j, i + 1 ≤ j → j < st.length →
            (inq.set i true).getD j false = false := by
          intro j hj1 hj2
          rw [getD_set_other inq i j true false (by omega)]
          exact hfresh j (by omega) hj2
        obtain ⟨k, hk1, hk2, hq, hnext, hlen2, hgetD, hadm, hbnd⟩ :=
          ih (i+1) (inq.set i true) (q ++ [i]) (by omega) (by omega)
            (by rw [List.length_set]; exact hlen) hsort hfresh2
        refine ⟨k, by omega, hk2, ?_, ?_, ?_, ?_, ?_, ?_⟩
        · rw [hstep, hq]
          rw [show k - i = (k - (i+1)) + 1 by omega, List.range'_succ]
          simp
        · rw [hstep, hnext]
        · rw [hstep, hlen2, List.length_set]
        · intro j
          rw [hstep, hgetD j]
          by_cases hji : j = i
          · subst hji
            rw [getD_set_self inq j true false (by omega)]
            rw [decide_eq_true (show j ≤ j ∧ j < k by omega)]
            simp
          · rw [getD_set_other inq i j true false (fun hc => hji hc.symm)]
            rw [show decide (i + 1 ≤ j ∧ j < k) =
              decide (i ≤ j ∧ j < k) from decide_eq_decide.mpr (by omega)]
        · intro j hj h1 h2
          rcases Nat.eq_or_lt_of_le h1 with heq | hlt2
          · have h3 : st.get? j = some p := by
              rw [← heq]
              exact hget
            have h4 := List.get?_eq_get hj
            rw [h4] at h3
            have h5 : st.get ⟨j, hj⟩ = p := (Option.some.injEq _ _).mp h3
            rw [h5]
            exact harr
          · exact hadm j hj (by omega) h2
        · exact hbnd
      · have hcond : ¬ (p.arrival ≤ time ∧ inq.getD i false = false) := by
          intro hc
          exact harr hc.1
        have hstep : rrAdmitGo st time (f+1) i inq q i = (inq, q, i) := by
          simp only [rrAdmitGo, hget, if_neg hcond, if_pos (by omega :
            time < p.arrival)]
        refine ⟨i, le_refl i, by omega, ?_, ?_, ?_, ?_, ?_, ?_⟩
        · rw [hstep]
          simp
        · rw [hstep]
        · rw [hstep]
        · intro j
          rw [hstep]
          rw [decide_eq_false (by omega : ¬ (i ≤ j ∧ j < i))]
          simp
        · intro j hj h1 h2
          omega
        · intro j hj hk
          have hge : (st.get ⟨i, hilt⟩).arrival ≤ (st.get ⟨j, hj⟩).arrival :=
            arrivalsSorted_get hsort hk hilt hj
          have : st.get ⟨i, hilt⟩ = p := by
            have := List.get?_eq_get hilt
            rw [hget] at this
            exact (Option.some.injEq _ _).mp this.symm
          rw [this] at hge
          omega

theorem rrNextArrGo_some (st : List Process) :
    ∀ (f i : Nat) (v : Int), rrNextArrGo st f i = some v →
      ∃ j p, st.get? j = some p ∧ i ≤ j ∧ 0 < p.rem_bt ∧ p.arrival = v := by
  intro f
  induction f with
  | zero =>
    intro i v h
    simp [rrNextArrGo] at h
  | succ f ih =>
    intro i v h
    cases hget : st.get? i with
    | none =>
      simp only [rrNextArrGo, hget] at h
      cases h
    | some p =>
      simp only [rrNextArrGo, hget] at h
      by_cases hrem : 0 < p.rem_bt
      · rw [if_pos hrem] at h
        injection h with h2
        exact ⟨i, p, hget, le_refl i, hrem, h2⟩
      · rw [if_neg hrem] at h
        obtain ⟨j, p2, hj, hij, hr, ha⟩ := ih (i+1) v h
        exact ⟨j, p2, hj, by omega, hr, ha⟩

theorem rrNextArrGo_isSome (st : List Process) :
    ∀ (f i j : Nat) (p : Process), st.get? j = some p → i ≤ j → j < f + i →
      0 < p.rem_bt → (rrNextArrGo st f i).isSome := by
  intro f
  induction f with
  | zero =>
    intro i j p hj hij hlt
    omega
  | succ f ih =>
    intro i j p hj hij hlt hrem
    cases hget : st.get? i with
    | none =>
      exfalso
      have hi : st.length ≤ i := List.get?_eq_none.mp hget
      have hjlt : j < st.length := (List.get?_eq_some.mp hj).1
      omega
    | some p0 =>
      simp only [rrNextArrGo, hget]
      by_cases hrem0 : 0 < p0.rem_bt
      · rw [if_pos hrem0]
        rfl
      · rw [if_neg hrem0]
        rcases Nat.eq_or_lt_of_le hij with heq | hlt2
        · exfalso
          rw [← heq] at hj
          rw [hget] at hj
          injection hj with h2
          rw [h2] at hrem0
          exact hrem0 hrem
        · exact ih (i+1) j p hj (by omega) (by omega) hrem

theorem get?_set_self2 {α : Type} :
    ∀ (l : List α) (i : Nat) (x : α), i < l.length →
      (l.set i x).get? i = some x := by
  intro l
  induction l with
  | nil => intro i x h; simp at h
  | cons a rest ih =>
    intro i x h
    cases i with
    | zero => rfl
    | succ i => simpa [List.set] using ih i x (by simpa using h)

theorem get?_set_neq {α : Type} :
    ∀ (l : List α) (i jj : Nat) (x : α), i ≠ jj →
      (l.set i x).get? jj = l.get? jj := by
  intro l
  induction l with
  | nil => intro i jj x h; simp
  | cons a rest ih =>
    intro i jj x h
    cases i with
    | zero =>
      cases jj with
      | zero => exact absurd rfl h
      | succ jj => rfl
    | succ i =>
      cases jj with
      | zero => rfl
      | succ jj => simpa [List.set] using ih i jj x (by omega)

theorem get_set_neq {α : Type} (l : List α) (i jj : Nat) (x : α)
    (h : i ≠ jj) (hj : jj < (l.set i x).length) (hj2 : jj < l.length) :
    (l.set i x).get ⟨jj, hj⟩ = l.get ⟨jj, hj2⟩ := by
  have h1 := List.get?_eq_get hj
  have h2 := List.get?_eq_get hj2
  have h3 := get?_set_neq l i jj x h
  rw [h1, h2] at h3
  exact (Option.some.injEq _ _).mp h3

theorem get_set_self {α : Type} (l : List α) (i : Nat) (x : α)
    (hi : i < (l.set i x).length) : (l.set i x).get ⟨i, hi⟩ = x := by
  have h1 := List.get?_eq_get hi
  have h2 := get?_set_self2 l i x (by simpa using hi)
  rw [h2] at h1
  exact ((Option.some.injEq _ _).mp h1).symm

theorem rrLoop_complete (quantum : Int) (hquant : 0 < quantum) :
    ∀ (fuel : Nat) (time : Int) (cnt : Nat) (st : List Process)
      (inq : List Bool) (q : List Nat) (next : Nat)
      (tl : List Int) (bl : List Blk) (last : Option Blk),
      arrivalsSorted st →
      cnt = st.countP (fun p => decide (p.rem_bt = 0)) →
      (∀ p ∈ st, 0 < p.bt) →
      (∀ p ∈ st, 0 ≤ p.rem_bt ∧ p.rem_bt ≤ p.bt) →
      (∀ p ∈ st, p.rem_bt < p.bt → p.arrival + (p.bt - p.rem_bt) ≤ time) →
      (∀ p ∈ st, p.rem_bt = 0 → MetricsOk p) →
      (∀ j ∈ q, ∃ p, st.get? j = some p ∧ p.arrival ≤ time ∧ 0 < p.rem_bt) →
      (∀ j ∈ q, j < next) →
      q.Nodup →
      (∀ j, j < st.length → (inq.getD j false = true ↔ j ∈ q)) →
      (∀ j, next ≤ j → (hj : j < st.length) →
        inq.getD j false = false ∧
        (st.get ⟨j, hj⟩).rem_bt = (st.get ⟨j, hj⟩).bt) →
      (∀ j, (hj : j < st.length) → j < next →
        0 < (st.get ⟨j, hj⟩).rem_bt → j ∈ q) →
      inq.length = st.length →
      next ≤ st.length →
      (2 * sumRem st + 1 ≤ fuel ∨
        (2 * sumRem st ≤ fuel ∧ (q ≠ [] ∨ ∃ j p, st.get? j = some p ∧
          next ≤ j ∧ p.arrival ≤ time ∧ 0 < p.rem_bt))) →
      ∀ p ∈ (rrLoop quantum fuel time cnt st inq q next tl bl last).1,
        p.rem_bt = 0 ∧ MetricsOk p := by
  intro fuel
  induction fuel using Nat.strong_induction_on with
  | _ fuel IH =>
    intro time cnt st inq q next tl bl last hsort hcnt hbt hrange hacct hdone
      hqmem hqlt hqnd hsync hfresh hcov hinql hnextle hfuel
    have hallcase : (∀ p ∈ st, p.rem_bt = 0) →
        ∀ p ∈ st, p.rem_bt = 0 ∧ MetricsOk p :=
      fun hall p hp => ⟨hall p hp, hdone p hp (hall p hp)⟩
    cases fuel with
    | zero =>
      simp only [rrLoop]
      rcases hfuel with hf | ⟨hf, _⟩
      · omega
      · exact hallcase (sumRem_zero (by omega) (fun p hp => (hrange p hp).1))
    | succ fuel =>
      by_cases hlt : cnt < st.length
      · obtain ⟨k1, hk1a, hk1b, hq1, hnext1, hlen1, hgetD1, hadm1, hbnd1⟩ :=
          rrAdmitGo_spec st time (st.length - next) next inq q (by omega)
            hnextle hinql hsort (fun j hj1 hj2 => (hfresh j hj1 hj2).1)
        simp only [rrLoop, rrAdmit, if_pos hlt]
        rw [hq1, hnext1]
        have hq1mem : ∀ j ∈ q ++ List.range' next (k1 - next),
            ∃ p, st.get? j = some p ∧ p.arrival ≤ time ∧ 0 < p.rem_bt := by
          intro j hj
          rcases List.mem_append.mp hj with hjq | hjr
          · exact hqmem j hjq
          · have hjr2 := List.mem_range'_1.mp hjr
            have hjlt : j < st.length := by omega
            refine ⟨st.get ⟨j, hjlt⟩, List.get?_eq_get hjlt,
              hadm1 j hjlt (by omega) (by omega), ?_⟩
            have h1 := (hfresh j (by omega) hjlt).2
            have h2 := hbt _ (st.get_mem j hjlt)
            omega
        have hq1lt : ∀ j ∈ q ++ List.range' next (k1 - next), j < k1 := by
          intro j hj
          rcases List.mem_append.mp hj with hjq | hjr
          · have := hqlt j hjq
            omega
          · have := List.mem_range'_1.mp hjr
            omega
        have hq1nd : (q ++ List.range' next (k1 - next)).Nodup := by
          rw [List.nodup_append]
          refine ⟨hqnd, List.nodup_range' next (k1 - next), ?_⟩
          rw [List.disjoint_left]
          intro a ha har
          have h1 := hqlt a ha
          have h2 := List.mem_range'_1.mp har
          omega
        have hsync1 : ∀ j, j < st.length →
            ((rrAdmitGo st time (st.length - next) next inq q next).1.getD
              j false = true ↔ j ∈ q ++ List.range' next (k1 - next)) := by
          intro j hjlen
          rw [hgetD1 j, Bool.or_eq_true, decide_eq_true_eq, List.mem_append,
            List.mem_range'_1]
          rw [hsync j hjlen]
          constructor
          · rintro (h | h)
            · exact Or.inl h
            · exact Or.inr (by omega)
          · rintro (h | h)
            · exact Or.inl h
            · exact Or.inr (by omega)
        have hfresh1 : ∀ j, k1 ≤ j → (hj : j < st.length) →
            (rrAdmitGo st time (st.length - next) next inq q next).1.getD
              j false = false ∧
            (st.get ⟨j, hj⟩).rem_bt = (st.get ⟨j, hj⟩).bt := by
          intro j hj1 hj2
          rw [hgetD1 j]
          rw [decide_eq_false (by omega : ¬ (next ≤ j ∧ j < k1))]
          rw [(hfresh j (by omega) hj2).1]
          exact ⟨rfl, (hfresh j (by omega) hj2).2⟩
        have hcov1 : ∀ j, (hj : j < st.length) → j < k1 →
            0 < (st.get ⟨j, hj⟩).rem_bt →
            j ∈ q ++ List.range' next (k1 - next) := by
          intro j hj hjlt2 hrem2
          rcases Nat.lt_or_ge j next with h | h
          · exact List.mem_append.mpr (Or.inl (hcov j hj h hrem2))
          · exact List.mem_append.mpr (Or.inr (List.mem_range'_1.mpr
              (by omega)))
        have hinql1 :
            (rrAdmitGo st time (st.length - next) next inq q next).1.length =
              st.length := hlen1.trans hinql
        cases hql : q ++ List.range' next (k1 - next) with
        | nil =>
          rw [hql] at hq1mem hq1lt hq1nd hsync1 hcov1
          simp only [hql]
          cases hna : rrNextArrival st k1 with
          | none =>
            simp only [hna]
            exfalso
            obtain ⟨y, hy, hyflag⟩ := countP_lt_exists (by omega :
              st.countP (fun p => decide (p.rem_bt = 0)) < st.length)
            have hyrem : 0 < y.rem_bt := by
              simp only [decide_eq_false_iff_not] at hyflag
              have := (hrange y hy).1
              omega
            obtain ⟨iy, hiy⟩ := List.mem_iff_get?.mp hy
            have hiylt : iy < st.length := (List.get?_eq_some.mp hiy).1
            have hiyget : st.get ⟨iy, hiylt⟩ = y := by
              have h4 := List.get?_eq_get hiylt
              rw [h4] at hiy
              exact (Option.some.injEq _ _).mp hiy
            rcases Nat.lt_or_ge iy k1 with hcase2 | hcase2
            · have := hcov1 iy hiylt hcase2 (by rw [hiyget]; exact hyrem)
              simp at this
            · have hs := rrNextArrGo_isSome st (st.length - k1) k1 iy y hiy
                hcase2 (by omega) hyrem
              rw [show rrNextArrGo st (st.length - k1) k1 =
                rrNextArrival st k1 from rfl, hna] at hs
              simp at hs
          | some nt =>
            simp only [hna]
            obtain ⟨jstar, pstar, hjsget, hjsge, hjsrem, hjsarr⟩ :=
              rrNextArrGo_some st (st.length - k1) k1 nt hna
            have hjslt : jstar < st.length := (List.get?_eq_some.mp hjsget).1
            have hjsgete : st.get ⟨jstar, hjslt⟩ = pstar := by
              have h4 := List.get?_eq_get hjslt
              rw [h4] at hjsget
              exact (Option.some.injEq _ _).mp hjsget
            have hntgt : time < nt := by
              have := hbnd1 jstar hjslt (by omega)
              rw [hjsgete] at this
              omega
            have hfuelL : 2 * sumRem st + 1 ≤ fuel + 1 := by
              rcases hfuel with hf | ⟨hf, hprog⟩
              · exact hf
              · exfalso
                rcases hprog with hne | ⟨ja, pa, hja1, hja2, hja3, hja4⟩
                · have : q = [] := (List.append_eq_nil.mp hql).1
                  exact hne this
                · have hjalt : ja < st.length := (List.get?_eq_some.mp hja1).1
                  have hjagete : st.get ⟨ja, hjalt⟩ = pa := by
                    have h4 := List.get?_eq_get hjalt
                    rw [h4] at hja1
                    exact (Option.some.injEq _ _).mp hja1
                  rcases Nat.lt_or_ge ja k1 with hc2 | hc2
                  · have := hcov1 ja hjalt hc2 (by rw [hjagete]; exact hja4)
                    simp at this
                  · have := hbnd1 ja hjalt (by omega)
                    rw [hjagete] at this
                    omega
            refine IH fuel (by omega) nt cnt st _ [] k1 _ _ _ hsort hcnt hbt
              hrange ?_ hdone ?_ ?_ ?_ ?_ ?_ ?_ hinql1 (by omega) ?_
            · intro p hp hpl
              have := hacct p hp hpl
              omega
            · intro j hj
              simp at hj
            · intro j hj
              simp at hj
            · exact List.nodup_nil
            · intro j hjlen
              rw [hsync1 j hjlen]
            · intro j hj1 hj2
              rcases Nat.lt_or_ge j k1 with hc | hc
              · exact absurd hj1 (by omega)
              · exact hfresh1 j hc hj2
            · intro j hj hjlt2 hrem2
              exact hcov1 j hj hjlt2 hrem2
            · right
              refine ⟨by omega, Or.inr ⟨jstar, pstar, hjsget, hjsge,
                le_of_eq hjsarr, hjsrem⟩⟩
        | cons j qrest =>
          rw [hql] at hq1mem hq1lt hq1nd hsync1 hcov1
          simp only [hql]
          obtain ⟨p, hpget, hparr, hprem⟩ :=
            hq1mem j (List.mem_cons_self j qrest)
          simp only [hpget]
          have hjlt : j < st.length := (List.get?_eq_some.mp hpget).1
          have hjltk1 : j < k1 := hq1lt j (List.mem_cons_self j qrest)
          have hjnotqrest : j ∉ qrest := (List.nodup_cons.mp hq1nd).1
          have hqrestnd : qrest.Nodup := (List.nodup_cons.mp hq1nd).2
          have hpmem : p ∈ st := List.get?_mem hpget
          have hpbt : 0 < p.bt := hbt p hpmem
          have hprange := hrange p hpmem
          have hpacct := hacct p hpmem
          have hexpos : 1 ≤ min quantum p.rem_bt := le_min (by omega) (by omega)
          have hexle : min quantum p.rem_bt ≤ p.rem_bt := min_le_right _ _
          have hmap1 : (st.set j { p with rem_bt := p.rem_bt - min quantum p.rem_bt }).map (fun r => r.arrival) = st.map (fun r => r.arrival) := by
            rw [List.map_set]
            exact set_get?_self _ j _ (by rw [List.get?_map, hpget]; rfl)
          have hsort1 : arrivalsSorted (st.set j { p with rem_bt := p.rem_bt - min quantum p.rem_bt }) := by
            unfold arrivalsSorted
            rw [hmap1]
            exact hsort
          have hfresh2 : ∀ jj, k1 ≤ jj → jj < (st.set j { p with rem_bt := p.rem_bt - min quantum p.rem_bt }).length →
              ((rrAdmitGo st time (st.length - next) next inq q next).1.set j false).getD jj false = false := by
            intro jj hjj1 hjj2
            rw [getD_set_other _ j jj false false (by omega)]
            exact (hfresh1 jj hjj1 (by simpa using hjj2)).1
          obtain ⟨k2, hk2a, hk2b, hq2, hnext2, hlen2, hgetD2, hadm2, hbnd2⟩ :=
            rrAdmitGo_spec (st.set j { p with rem_bt := p.rem_bt - min quantum p.rem_bt }) (time + min quantum p.rem_bt)
              ((st.set j { p with rem_bt := p.rem_bt - min quantum p.rem_bt }).length - k1) k1
              ((rrAdmitGo st time (st.length - next) next inq q next).1.set j false) qrest
              (by simp; omega) (by simp; omega) (by simp [hinql1]) hsort1 hfresh2
          have hk2b' : k2 ≤ st.length := by simpa using hk2b
          rw [hq2, hnext2]
          have hq3qrest : ∀ jj ∈ qrest, jj ≠ j ∧
              ∃ pj, st.get? jj = some pj ∧ pj.arrival ≤ time ∧
                0 < pj.rem_bt ∧ jj < k1 := by
            intro jj hjq
            have hne : jj ≠ j := fun hc => hjnotqrest (hc ▸ hjq)
            obtain ⟨pj, h1, h2, h3⟩ := hq1mem jj (List.mem_cons_of_mem j hjq)
            exact ⟨hne, pj, h1, h2, h3, hq1lt jj (List.mem_cons_of_mem j hjq)⟩
          by_cases h0 : p.rem_bt - min quantum p.rem_bt = 0
          · rw [if_pos h0, List.set_set]
            refine IH fuel (by omega) (time + min quantum p.rem_bt) (cnt + 1)
              _ _ _ _ _ _ _ ?_ ?_ ?_ ?_ ?_ ?_ ?_ ?_ ?_ ?_ ?_ ?_ ?_ ?_ ?_
            · unfold arrivalsSorted
              rw [List.map_set]
              rw [set_get?_self _ j _ (by rw [List.get?_map, hpget]; rfl)]
              exact hsort
            · have hc := countP_set_eq (fun r => decide (r.rem_bt = 0)) st j p
                ({ p with rem_bt := p.rem_bt - min quantum p.rem_bt, ct := time + min quantum p.rem_bt, tat := time + min quantum p.rem_bt - p.arrival, wt := time + min quantum p.rem_bt - p.arrival - p.bt }) hpget
              rw [if_neg (show ¬ ((fun r : Process => decide (r.rem_bt = 0)) p = true) by simp only [decide_eq_true_eq]; omega)] at hc
              rw [if_pos (show ((fun r : Process => decide (r.rem_bt = 0)) ({ p with rem_bt := p.rem_bt - min quantum p.rem_bt, ct := time + min quantum p.rem_bt, tat := time + min quantum p.rem_bt - p.arrival, wt := time + min quantum p.rem_bt - p.arrival - p.bt } : Process)) = true by simp only [decide_eq_true_eq]; exact h0)] at hc
              omega
            · intro r hr
              rcases List.mem_or_eq_of_mem_set hr with hmem | rfl
              · exact hbt r hmem
              · exact show 0 < p.bt from hpbt
            · intro r hr
              rcases List.mem_or_eq_of_mem_set hr with hmem | rfl
              · exact hrange r hmem
              · exact ⟨show (0:Int) ≤ p.rem_bt - min quantum p.rem_bt by omega,
                  show p.rem_bt - min quantum p.rem_bt ≤ p.bt by omega⟩
            · intro r hr hrl
              rcases List.mem_or_eq_of_mem_set hr with hmem | rfl
              · have := hacct r hmem hrl
                omega
              · refine show p.arrival + (p.bt - (p.rem_bt - min quantum p.rem_bt)) ≤ time + min quantum p.rem_bt from ?_
                rcases eq_or_lt_of_le hprange.2 with heq | hlt2
                · omega
                · have := hpacct hlt2
                  omega
            · intro r hr hr0
              rcases List.mem_or_eq_of_mem_set hr with hmem | rfl
              · exact hdone r hmem hr0
              · have hc1 : p.arrival + p.bt ≤ time + min quantum p.rem_bt := by
                  rcases eq_or_lt_of_le hprange.2 with heq | hlt2
                  · omega
                  · have := hpacct hlt2
                    omega
                exact show p.arrival + p.bt ≤ time + min quantum p.rem_bt ∧
                  time + min quantum p.rem_bt - p.arrival = time + min quantum p.rem_bt - p.arrival ∧
                  time + min quantum p.rem_bt - p.arrival - p.bt = time + min quantum p.rem_bt - p.arrival - p.bt ∧
                  0 ≤ time + min quantum p.rem_bt - p.arrival - p.bt from
                  ⟨hc1, rfl, rfl, by omega⟩
            · intro jj hjj
              rcases List.mem_append.mp hjj with hjq | hjr
              · obtain ⟨hne, pj, h1, h2, h3, h4⟩ := hq3qrest jj hjq
                refine ⟨pj, ?_, by omega, h3⟩
                rw [get?_set_neq st j jj _ (fun hc => hne hc.symm)]
                exact h1
              · have hjr2 := List.mem_range'_1.mp hjr
                have hjjlt : jj < st.length := by omega
                have hjjne : j ≠ jj := by omega
                refine ⟨st.get ⟨jj, hjjlt⟩, ?_, ?_, ?_⟩
                · rw [get?_set_neq st j jj _ hjjne]
                  exact List.get?_eq_get hjjlt
                · have h5 := hadm2 jj (by simpa using hjjlt) (by omega)
                    (by omega)
                  rw [get_set_neq st j jj _ hjjne _ hjjlt] at h5
                  exact h5
                · have h1 := (hfresh jj (by omega) hjjlt).2
                  have h2 := hbt _ (List.get_mem st jj hjjlt)
                  omega
            · intro jj hjj
              rcases List.mem_append.mp hjj with hjq | hjr
              · obtain ⟨-, pj, -, -, -, h4⟩ := hq3qrest jj hjq
                omega
              · have := List.mem_range'_1.mp hjr
                omega
            · rw [List.nodup_append]
              refine ⟨hqrestnd, List.nodup_range' k1 (k2 - k1), ?_⟩
              rw [List.disjoint_left]
              intro a ha har
              obtain ⟨-, pa, -, -, -, h1⟩ := hq3qrest a ha
              have h2 := List.mem_range'_1.mp har
              omega
            · intro jj hjjlen
              have hjjlen2 : jj < st.length := by simpa using hjjlen
              rw [hgetD2 jj]
              by_cases hjjj : jj = j
              · subst hjjj
                rw [getD_set_self _ jj false false (by rw [hinql1]; omega)]
                rw [decide_eq_false (by omega : ¬ (k1 ≤ jj ∧ jj < k2))]
                simp only [Bool.or_false]
                constructor
                · intro hfa
                  cases hfa
                · intro hmem
                  exfalso
                  rcases List.mem_append.mp hmem with h | h
                  · exact hjnotqrest h
                  · have := List.mem_range'_1.mp h
                    omega
              · rw [getD_set_other _ j jj false false (fun hc => hjjj hc.symm)]
                rw [Bool.or_eq_true, decide_eq_true_eq, hsync1 jj hjjlen2]
                rw [List.mem_append, List.mem_range'_1, List.mem_cons]
                constructor
                · rintro (h | h)
                  · rcases h with h | h
                    · exact absurd h hjjj
                    · exact Or.inl h
                  · exact Or.inr (by omega)
                · rintro (h | h)
                  · exact Or.inl (Or.inr h)
                  · exact Or.inr (by omega)
            · intro jj hjj1 hjj2
              have hjj2s : jj < st.length := by simpa using hjj2
              constructor
              · rw [hgetD2 jj]
                rw [getD_set_other _ j jj false false (by omega)]
                rw [(hfresh1 jj (by omega) hjj2s).1]
                rw [decide_eq_false (by omega : ¬ (k1 ≤ jj ∧ jj < k2))]
                rfl
              · rw [get_set_neq st j jj _ (by omega) _ hjj2s]
                exact (hfresh jj (by omega) hjj2s).2
            · intro jj hjj hjjlt2 hjjrem
              have hjjs : jj < st.length := by simpa using hjj
              by_cases hjjj : jj = j
              · exfalso
                subst hjjj
                rw [get_set_self st jj _ hjj] at hjjrem
                have : p.rem_bt - min quantum p.rem_bt = 0 := h0
                simp only at hjjrem
                omega
              · rw [get_set_neq st j jj _ (fun hc => hjjj hc.symm) _ hjjs]
                  at hjjrem
                rcases Nat.lt_or_ge jj k1 with hc | hc
                · have := hcov1 jj hjjs hc hjjrem
                  rcases List.mem_cons.mp this with h | h
                  · exact absurd h hjjj
                  · exact List.mem_append.mpr (Or.inl h)
                · exact List.mem_append.mpr (Or.inr (List.mem_range'_1.mpr
                    (by omega)))
            · rw [hlen2]
              simp [hinql1]
            · simpa using hk2b
            · left
              have hsum2 : sumRem (st.set j ({ p with rem_bt := p.rem_bt - min quantum p.rem_bt, ct := time + min quantum p.rem_bt, tat := time + min quantum p.rem_bt - p.arrival, wt := time + min quantum p.rem_bt - p.arrival - p.bt } : Process)) + p.rem_bt.toNat = sumRem st + (p.rem_bt - min quantum p.rem_bt).toNat :=
                sum_map_set (fun r => r.rem_bt.toNat) st j p _ hpget
              rcases hfuel with hf | ⟨hf, _⟩ <;> omega
          · rw [if_neg h0]
            refine IH fuel (by omega) (time + min quantum p.rem_bt) cnt
              _ _ _ _ _ _ _ ?_ ?_ ?_ ?_ ?_ ?_ ?_ ?_ ?_ ?_ ?_ ?_ ?_ ?_ ?_
            · exact hsort1
            · have hc := countP_set_eq (fun r => decide (r.rem_bt = 0)) st j p
                ({ p with rem_bt := p.rem_bt - min quantum p.rem_bt }) hpget
              rw [if_neg (show ¬ ((fun r : Process => decide (r.rem_bt = 0)) p = true) by simp only [decide_eq_true_eq]; omega)] at hc
              rw [if_neg (show ¬ ((fun r : Process => decide (r.rem_bt = 0)) ({ p with rem_bt := p.rem_bt - min quantum p.rem_bt } : Process) = true) by simp only [decide_eq_true_eq]; exact h0)] at hc
              omega
            · intro r hr
              rcases List.mem_or_eq_of_mem_set hr with hmem | rfl
              · exact hbt r hmem
              · exact show 0 < p.bt from hpbt
            · intro r hr
              rcases List.mem_or_eq_of_mem_set hr with hmem | rfl
              · exact hrange r hmem
              · exact ⟨show (0:Int) ≤ p.rem_bt - min quantum p.rem_bt by omega,
                  show p.rem_bt - min quantum p.rem_bt ≤ p.bt by omega⟩
            · intro r hr hrl
              rcases List.mem_or_eq_of_mem_set hr with hmem | rfl
              · have := hacct r hmem hrl
                omega
              · refine show p.arrival + (p.bt - (p.rem_bt - min quantum p.rem_bt)) ≤ time + min quantum p.rem_bt from ?_
                rcases eq_or_lt_of_le hprange.2 with heq | hlt2
                · omega
                · have := hpacct hlt2
                  omega
            · intro r hr hr0
              rcases List.mem_or_eq_of_mem_set hr with hmem | rfl
              · exact hdone r hmem hr0
              · exact absurd hr0 h0
            · intro jj hjj
              rcases List.mem_append.mp hjj with hjj2 | hjj2
              · rcases List.mem_append.mp hjj2 with hjq | hjr
                · obtain ⟨hne, pj, h1, h2, h3, h4⟩ := hq3qrest jj hjq
                  refine ⟨pj, ?_, by omega, h3⟩
                  rw [get?_set_neq st j jj _ (fun hc => hne hc.symm)]
                  exact h1
                · have hjr2 := List.mem_range'_1.mp hjr
                  have hjjlt : jj < st.length := by omega
                  have hjjne : j ≠ jj := by omega
                  refine ⟨st.get ⟨jj, hjjlt⟩, ?_, ?_, ?_⟩
                  · rw [get?_set_neq st j jj _ hjjne]
                    exact List.get?_eq_get hjjlt
                  · have h5 := hadm2 jj (by simpa using hjjlt) (by omega)
                      (by omega)
                    rw [get_set_neq st j jj _ hjjne _ hjjlt] at h5
                    exact h5
                  · have h1 := (hfresh jj (by omega) hjjlt).2
                    have h2 := hbt _ (List.get_mem st jj hjjlt)
                    omega
              · have hjjeq : jj = j := by simpa using hjj2
                subst hjjeq
                refine ⟨{ p with rem_bt := p.rem_bt - min quantum p.rem_bt },
                  get?_set_self2 st jj _ hjlt, ?_, ?_⟩
                · exact show p.arrival ≤ time + min quantum p.rem_bt by omega
                · exact show 0 < p.rem_bt - min quantum p.rem_bt by omega
            · intro jj hjj
              rcases List.mem_append.mp hjj with hjj2 | hjj2
              · rcases List.mem_append.mp hjj2 with hjq | hjr
                · obtain ⟨-, pj, -, -, -, h4⟩ := hq3qrest jj hjq
                  omega
                · have := List.mem_range'_1.mp hjr
                  omega
              · have hjjeq : jj = j := by simpa using hjj2
                omega
            · rw [List.nodup_append]
              refine ⟨?_, List.nodup_singleton j, ?_⟩
              · rw [List.nodup_append]
                refine ⟨hqrestnd, List.nodup_range' k1 (k2 - k1), ?_⟩
                rw [List.disjoint_left]
                intro a ha har
                obtain ⟨-, pa, -, -, -, h1⟩ := hq3qrest a ha
                have h2 := List.mem_range'_1.mp har
                omega
              · rw [List.disjoint_left]
                intro a ha haj
                have hajeq : a = j := by simpa using haj
                subst hajeq
                rcases List.mem_append.mp ha with h | h
                · exact hjnotqrest h
                · have := List.mem_range'_1.mp h
                  omega
            · intro jj hjjlen
              have hjjlen2 : jj < st.length := by simpa using hjjlen
              by_cases hjjj : jj = j
              · subst hjjj
                rw [getD_set_self _ jj true false (by rw [hlen2, List.length_set, hinql1]; omega)]
                constructor
                · intro _
                  exact List.mem_append.mpr (Or.inr (List.mem_cons_self jj []))
                · intro _
                  rfl
              · rw [getD_set_other _ j jj true false (fun hc => hjjj hc.symm)]
                rw [hgetD2 jj]
                rw [getD_set_other _ j jj false false (fun hc => hjjj hc.symm)]
                rw [Bool.or_eq_true, decide_eq_true_eq, hsync1 jj hjjlen2]
                rw [List.mem_append, List.mem_append, List.mem_range'_1,
                  List.mem_cons]
                constructor
                · rintro (h | h)
                  · rcases h with h | h
                    · exact absurd h hjjj
                    · exact Or.inl (Or.inl h)
                  · exact Or.inl (Or.inr (by omega))
                · rintro ((h | h) | h)
                  · exact Or.inl (Or.inr h)
                  · exact Or.inr (by omega)
                  · exact absurd (by simpa using h) hjjj
            · intro jj hjj1 hjj2
              have hjj2s : jj < st.length := by simpa using hjj2
              constructor
              · rw [getD_set_other _ j jj true false (by omega)]
                rw [hgetD2 jj]
                rw [getD_set_other _ j jj false false (by omega)]
                rw [(hfresh1 jj (by omega) hjj2s).1]
                rw [decide_eq_false (by omega : ¬ (k1 ≤ jj ∧ jj < k2))]
                rfl
              · rw [get_set_neq st j jj _ (by omega) _ hjj2s]
                exact (hfresh jj (by omega) hjj2s).2
            · intro jj hjj hjjlt2 hjjrem
              have hjjs : jj < st.length := by simpa using hjj
              by_cases hjjj : jj = j
              · subst hjjj
                exact List.mem_append.mpr (Or.inr (List.mem_cons_self jj []))
              · rw [get_set_neq st j jj _ (fun hc => hjjj hc.symm) _ hjjs]
                  at hjjrem
                rcases Nat.lt_or_ge jj k1 with hc | hc
                · have := hcov1 jj hjjs hc hjjrem
                  rcases List.mem_cons.mp this with h | h
                  · exact absurd h hjjj
                  · exact List.mem_append.mpr (Or.inl
                      (List.mem_append.mpr (Or.inl h)))
                · exact List.mem_append.mpr (Or.inl (List.mem_append.mpr
                    (Or.inr (List.mem_range'_1.mpr (by omega)))))
            · rw [List.length_set, hlen2]
              simp [hinql1]
            · simpa using hk2b
            · left
              have hsum2 : sumRem (st.set j ({ p with rem_bt := p.rem_bt - min quantum p.rem_bt } : Process)) + p.rem_bt.toNat = sumRem st + (p.rem_bt - min quantum p.rem_bt).toNat :=
                sum_map_set (fun r => r.rem_bt.toNat) st j p _ hpget
              rcases hfuel with hf | ⟨hf, _⟩ <;> omega
      · simp only [rrLoop, if_neg hlt]
        refine hallcase ?_
        have hle : st.countP (fun p => decide (p.rem_bt = 0)) = st.length := by
          have := @List.countP_le_length Process
            (fun p => decide (p.rem_bt = 0)) st
          omega
        intro p hp
        simpa using List.countP_eq_length.mp hle p hp

/-- Witness for C6: at time 4 in the state c6St (P1 completed, P2 and P3
ready with equal burst 3), the scan picks P2, and the minimality
conclusion instantiated at P3 holds. -/
theorem C6_witness :
    pidIndexed c6St ∧
    npPick btKey 4 c6St = some (1, (mkProc 2 1 3 0, false)) ∧
    ((mkProc 2 1 3 0).bt < (mkProc 3 2 3 0).bt ∨
      ((mkProc 2 1 3 0).bt = (mkProc 3 2 3 0).bt ∧
        ((mkProc 2 1 3 0).arrival < (mkProc 3 2 3 0).arrival ∨
          ((mkProc 2 1 3 0).arrival = (mkProc 3 2 3 0).arrival ∧
            (mkProc 2 1 3 0).pid ≤ (mkProc 3 2 3 0).pid)))) :=
  ⟨by decide, by decide,
   (C6_sjf_dispatch_minimal 4 c6St (by decide) 1 (mkProc 2 1 3 0, false)
     (by decide)).2 2 (mkProc 3 2 3 0, false) (by decide) (by decide)
     (by decide)⟩

/-- Round Robin completes every process of a valid input and sets its
metrics, for any arrival-sorted permutation `l` of the input (any
conforming `std::sort` outcome): instantiation of `rrLoop_complete` at the
initial state built by `RoundRobin` (`rem_bt` reset, empty queue,
all-false `in_queue`, `next = 0`, fuel `rrFuel`). -/
theorem RoundRobin_all_metrics (procs : List Process) (quantum : Int)
    (l : List Process) (hv : ValidInput procs) (hq : 0 < quantum)
    (hl : l.Perm procs) (hs : arrivalsSorted l) :
    ∀ p ∈ (rrFrom quantum (rrFuel procs) l).procs,
      p.rem_bt = 0 ∧ MetricsOk p := by
  intro p hp
  have hp2 : p ∈ (rrLoop quantum (rrFuel procs) 0 0
      (l.map (fun r => { r with rem_bt := r.bt }))
      (List.replicate (l.map
        (fun r => { r with rem_bt := r.bt })).length false)
      [] 0 [0] [] none).1 :=
    (sortKey_perm (fun r => r.pid) _).mem_iff.mp hp
  have hmems : ∀ r ∈ l, r ∈ procs := by
    intro r hr
    exact hl.mem_iff.mp hr
  refine rrLoop_complete quantum hq (rrFuel procs) 0 0 _ _ _ _ _ _ _
    ?_ ?_ ?_ ?_ ?_ ?_ ?_ ?_ ?_ ?_ ?_ ?_ ?_ ?_ ?_ p hp2
  · unfold arrivalsSorted
    rw [List.map_map, List.pairwise_map]
    exact List.pairwise_map.mp hs
  · symm
    rw [List.countP_eq_zero]
    intro a ha
    obtain ⟨r, hr, rfl⟩ := List.mem_map.mp ha
    have := (valid_mem hv r (hmems r hr)).2.1
    simp only [decide_eq_true_eq]
    exact show ¬ r.bt = 0 by omega
  · intro a ha
    obtain ⟨r, hr, rfl⟩ := List.mem_map.mp ha
    exact show 0 < r.bt from (valid_mem hv r (hmems r hr)).2.1
  · intro a ha
    obtain ⟨r, hr, rfl⟩ := List.mem_map.mp ha
    have := (valid_mem hv r (hmems r hr)).2.1
    exact ⟨show (0:Int) ≤ r.bt by omega, show r.bt ≤ r.bt from le_refl _⟩
  · intro a ha hlt
    obtain ⟨r, hr, rfl⟩ := List.mem_map.mp ha
    exact absurd (show r.bt < r.bt from hlt) (lt_irrefl _)
  · intro a ha h0
    obtain ⟨r, hr, rfl⟩ := List.mem_map.mp ha
    have := (valid_mem hv r (hmems r hr)).2.1
    exact absurd (show r.bt = 0 from h0) (by omega)
  · intro jj hjj
    exact absurd hjj (List.not_mem_nil jj)
  · intro jj hjj
    exact absurd hjj (List.not_mem_nil jj)
  · exact List.nodup_nil
  · intro jj hjj
    rw [getD_replicate_false]
    constructor
    · intro h
      exact absurd h (by decide)
    · intro h
      exact absurd h (List.not_mem_nil jj)
  · intro jj h0jj hjj
    refine ⟨getD_replicate_false _ _, ?_⟩
    simp [List.get_map]
  · intro jj hjj hjlt hrem
    exact absurd hjlt (Nat.not_lt_zero jj)
  · simp
  · exact Nat.zero_le _
  · left
    have hs : sumRem (l.map
        (fun r => { r with rem_bt := r.bt })) =
        (l.map (fun r => r.bt.toNat)).sum := by
      unfold sumRem
      rw [List.map_map]
      rfl
    have hperm : (l.map (fun r => r.bt.toNat)).sum =
        (procs.map (fun r => r.bt.toNat)).sum :=
      (hl.map _).sum_eq
    rw [hs, hperm]
    unfold rrFuel
    omega

/-- Initial records of a valid input have `ct = 0`: completion is marked
by writing a positive completion time. -/
theorem valid_ct_zero {procs : List Process} (hv : ValidInput procs) :
    ∀ p ∈ procs, p.ct = 0 := by
  intro p hp
  obtain ⟨i, hi⟩ := List.mem_iff_get?.mp hp
  obtain ⟨hlt, hget⟩ := List.get?_eq_some.mp hi
  have h := hv.2 i hlt
  rw [hget] at h
  exact h.2.2.2.2.2.1

/-- The stable insertion sort on arrival produces an arrival-sorted list:
the embedded `sortByArrival` is one conforming `std::sort` outcome. -/
theorem sortByArrival_sorted (procs : List Process) :
    arrivalsSorted (sortByArrival procs) := by
  unfold arrivalsSorted
  rw [List.pairwise_map]
  exact sortKey_pairwise (fun r => r.arrival) procs

/-- Partial correctness of the SJF/Priority loop, for any fuel and any
input values: a record flagged completed carries correct metrics, and an
unflagged record still has its initial `ct = 0`.  (Unlike
`npLoop_complete`, no `INT_MAX` bound is needed: on the sentinel paths the
loop stops or idles without writing any record.) -/
theorem npLoop_partial (key : Process → Int) :
    ∀ (fuel : Nat) (time : Int) (cnt : Nat) (st : List (Process × Bool))
      (tl : List Int) (bl : List Blk),
      (∀ pc ∈ st, pc.2 = true → MetricsOk pc.1) →
      (∀ pc ∈ st, pc.2 = false → pc.1.ct = 0) →
      ∀ pc ∈ (npLoop key fuel time cnt st tl bl).1,
        (pc.2 = true → MetricsOk pc.1) ∧ (pc.2 = false → pc.1.ct = 0) := by
  intro fuel
  induction fuel with
  | zero =>
    intro time cnt st tl bl hM hC pc hpc
    exact ⟨hM pc hpc, hC pc hpc⟩
  | succ fuel ih =>
    intro time cnt st tl bl hM hC
    by_cases hlt : cnt < st.length
    · cases hpick : npPick key time st with
      | some ip =>
        obtain ⟨i, pc0⟩ := ip
        obtain ⟨hget, hflag, harr⟩ := npPick_spec hpick
        simp only [npLoop, if_pos hlt, hpick]
        refine ih (time + pc0.1.bt) (cnt + 1) _ _ _ ?_ ?_
        · intro pc3 hpc3 hflag3
          rcases List.mem_or_eq_of_mem_set hpc3 with hmem | rfl
          · exact hM pc3 hmem hflag3
          · simp [MetricsOk]
            omega
        · intro pc3 hpc3 hflag3
          rcases List.mem_or_eq_of_mem_set hpc3 with hmem | rfl
          · exact hC pc3 hmem hflag3
          · simp at hflag3
      | none =>
        by_cases hna : npNextArrival st = INT_MAX
        · simp only [npLoop, if_pos hlt, hpick]
          rw [if_neg (not_not_intro hna)]
          intro pc hpc
          exact ⟨hM pc hpc, hC pc hpc⟩
        · simp only [npLoop, if_pos hlt, hpick]
          rw [if_pos hna]
          exact ih (npNextArrival st) cnt _ _ _ hM hC
    · simp only [npLoop, if_neg hlt]
      intro pc hpc
      exact ⟨hM pc hpc, hC pc hpc⟩

/-- Partial correctness of the SRTF loop, for any fuel and any input
values: a completed record (`rem_bt = 0`) carries correct metrics, and an
uncompleted record still has its initial `ct = 0` — even on inputs whose
`INT_MAX`-keyed processes the scan can never select, where the loop
livelocks (exhausts any fuel) without completing them. -/
theorem srtfLoop_partial :
    ∀ (fuel : Nat) (time : Int) (cnt : Nat) (st : List Process)
      (tl : List Int) (bl : List Blk) (last : Option Blk),
      (∀ p ∈ st, 0 ≤ p.rem_bt ∧ p.rem_bt ≤ p.bt) →
      (∀ p ∈ st, 0 < p.rem_bt → p.rem_bt < p.bt →
        p.arrival + (p.bt - p.rem_bt) ≤ time) →
      (∀ p ∈ st, p.rem_bt < p.bt → p.rem_bt < INT_MAX) →
      (∀ p ∈ st, p.rem_bt = 0 → MetricsOk p) →
      (∀ p ∈ st, p.rem_bt ≠ 0 → p.ct = 0) →
      ∀ p ∈ (srtfLoop fuel time cnt st tl bl last).1,
        (p.rem_bt = 0 → MetricsOk p) ∧ (p.rem_bt ≠ 0 → p.ct = 0) := by
  intro fuel
  induction fuel with
  | zero =>
    intro time cnt st tl bl last hrange hacct hpart hdone hct0 p hp
    exact ⟨hdone p hp, hct0 p hp⟩
  | succ fuel ih =>
    intro time cnt st tl bl last hrange hacct hpart hdone hct0
    by_cases hlt : cnt < st.length
    · cases hpick : scanPick (srtfElig time) (fun p => p.rem_bt)
          (fun p => p.arrival) 0 none st with
      | some ip =>
        obtain ⟨i, p⟩ := ip
        obtain ⟨hget, harr, hrembt⟩ := srtfPick_spec hpick
        have hpmem : p ∈ st := List.get?_mem hget
        have hprange := hrange p hpmem
        have hpacct := hacct p hpmem
        have hpk : p.rem_bt < INT_MAX :=
          (scanPick_min st 0 none (by intro j0 y0 h0; cases h0) i p hpick).2.1
        have hct0p : p.ct = 0 := hct0 p hpmem (by omega)
        simp only [srtfLoop, if_pos hlt, hpick]
        by_cases h0 : p.rem_bt - 1 = 0
        · rw [if_pos (show ({ p with rem_bt := p.rem_bt - 1 } : Process).rem_bt = 0 from h0)]
          refine ih (time + 1) (cnt + 1) _ _ _ _ ?_ ?_ ?_ ?_ ?_
          · intro q hq
            rcases List.mem_or_eq_of_mem_set hq with hmem | rfl
            · exact hrange q hmem
            · exact ⟨show (0:Int) ≤ p.rem_bt - 1 by omega,
                     show p.rem_bt - 1 ≤ p.bt by omega⟩
          · intro q hq hqpos hql
            rcases List.mem_or_eq_of_mem_set hq with hmem | rfl
            · have := hacct q hmem hqpos hql
              omega
            · exact absurd (show 0 < p.rem_bt - 1 from hqpos) (by omega)
          · intro q hq hql
            rcases List.mem_or_eq_of_mem_set hq with hmem | rfl
            · exact hpart q hmem hql
            · exact show p.rem_bt - 1 < INT_MAX by omega
          · intro q hq hq0
            rcases List.mem_or_eq_of_mem_set hq with hmem | rfl
            · exact hdone q hmem hq0
            · have hc1 : p.arrival + p.bt ≤ time + 1 := by
                rcases eq_or_lt_of_le hprange.2 with heq | hlt2
                · omega
                · have := hpacct (by omega) hlt2
                  omega
              exact show p.arrival + p.bt ≤ time + 1 ∧
                  time + 1 - p.arrival = time + 1 - p.arrival ∧
                  time + 1 - p.arrival - p.bt = time + 1 - p.arrival - p.bt ∧
                  0 ≤ time + 1 - p.arrival - p.bt from ⟨hc1, rfl, rfl, by omega⟩
          · intro q hq hq0
            rcases List.mem_or_eq_of_mem_set hq with hmem | rfl
            · exact hct0 q hmem hq0
            · exact absurd h0 hq0
        · rw [if_neg (show ¬ ({ p with rem_bt := p.rem_bt - 1 } : Process).rem_bt = 0 from h0)]
          refine ih (time + 1) cnt _ _ _ _ ?_ ?_ ?_ ?_ ?_
          · intro q hq
            rcases List.mem_or_eq_of_mem_set hq with hmem | rfl
            · exact hrange q hmem
            · exact ⟨show (0:Int) ≤ p.rem_bt - 1 by omega,
                     show p.rem_bt - 1 ≤ p.bt by omega⟩
          · intro q hq hqpos hql
            rcases List.mem_or_eq_of_mem_set hq with hmem | rfl
            · have := hacct q hmem hqpos hql
              omega
            · refine show p.arrival + (p.bt - (p.rem_bt - 1)) ≤ time + 1 from ?_
              rcases eq_or_lt_of_le hprange.2 with heq | hlt2
              · omega
              · have := hpacct (by omega) hlt2
                omega
          · intro q hq hql
            rcases List.mem_or_eq_of_mem_set hq with hmem | rfl
            · exact hpart q hmem hql
            · exact show p.rem_bt - 1 < INT_MAX by omega
          · intro q hq hq0
            rcases List.mem_or_eq_of_mem_set hq with hmem | rfl
            · exact hdone q hmem hq0
            · exact absurd hq0 (by simpa using h0)
          · intro q hq hq0
            rcases List.mem_or_eq_of_mem_set hq with hmem | rfl
            · exact hct0 q hmem hq0
            · exact show p.ct = 0 from hct0p
      | none =>
        cases hna : srtfNextArrival st with
        | some nt =>
          simp only [srtfLoop, if_pos hlt, hpick, hna]
          refine ih nt cnt st _ _ _ hrange ?_ hpart hdone hct0
          intro q hq hqpos hql
          exfalso
          have helig : srtfElig time q = true := by
            rw [srtfElig_iff]
            have := hacct q hq hqpos hql
            exact ⟨by omega, hqpos⟩
          have h1 := scanPick_none_no_elig hpick q hq helig
          have h2 := hpart q hq hql
          omega
        | none =>
          simp only [srtfLoop, if_pos hlt, hpick, hna]
          intro p hp
          exact ⟨hdone p hp, hct0 p hp⟩
    · simp only [srtfLoop, if_neg hlt]
      intro p hp
      exact ⟨hdone p hp, hct0 p hp⟩

/-- SJF emits correct metrics for every record it marks completed, on
every valid input (no `INT_MAX` bound): an emitted record with `ct ≠ 0`
was completed by the loop. -/
theorem SJF_completed_metrics (procs : List Process) (hv : ValidInput procs) :
    ∀ p ∈ (SJF procs).procs, p.ct ≠ 0 → MetricsOk p := by
  intro p hp hct
  have hp2 : p ∈ ((npLoop btKey (npFuel procs.length) 0 0
      (procs.map (fun q => (q, false))) [0] []).1.map (fun pc => pc.1)) :=
    (sortKey_perm (fun r => r.pid) _).mem_iff.mp hp
  obtain ⟨pc, hpc, rfl⟩ := List.mem_map.mp hp2
  have h := npLoop_partial btKey (npFuel procs.length) 0 0
      (procs.map (fun q => (q, false))) [0] []
      (by intro pc2 hpc2 hflag
          obtain ⟨q, _, rfl⟩ := List.mem_map.mp hpc2
          simp at hflag)
      (by intro pc2 hpc2 _
          obtain ⟨q, hq, rfl⟩ := List.mem_map.mp hpc2
          exact valid_ct_zero hv q hq)
      pc hpc
  cases hflag : pc.2 with
  | true => exact h.1 hflag
  | false => exact absurd (h.2 hflag) hct

/-- Priority scheduling emits correct metrics for every record it marks
completed, on every valid input (no `INT_MAX` bound). -/
theorem Priority_completed_metrics (procs : List Process)
    (hv : ValidInput procs) :
    ∀ p ∈ (PriorityScheduling procs).procs, p.ct ≠ 0 → MetricsOk p := by
  intro p hp hct
  have hp2 : p ∈ ((npLoop prioKey (npFuel procs.length) 0 0
      (procs.map (fun q => (q, false))) [0] []).1.map (fun pc => pc.1)) :=
    (sortKey_perm (fun r => r.pid) _).mem_iff.mp hp
  obtain ⟨pc, hpc, rfl⟩ := List.mem_map.mp hp2
  have h := npLoop_partial prioKey (npFuel procs.length) 0 0
      (procs.map (fun q => (q, false))) [0] []
      (by intro pc2 hpc2 hflag
          obtain ⟨q, _, rfl⟩ := List.mem_map.mp hpc2
          simp at hflag)
      (by intro pc2 hpc2 _
          obtain ⟨q, hq, rfl⟩ := List.mem_map.mp hpc2
          exact valid_ct_zero hv q hq)
      pc hpc
  cases hflag : pc.2 with
  | true => exact h.1 hflag
  | false => exact absurd (h.2 hflag) hct

/-- SRTF emits correct metrics for every record it completes, on every
valid input (no `INT_MAX` bound). -/
theorem SRTF_completed_metrics (procs : List Process) (hv : ValidInput procs) :
    ∀ p ∈ (SRTF procs).procs, p.ct ≠ 0 → MetricsOk p := by
  intro p hp hct
  have hp2 : p ∈ (srtfLoop (srtfFuel procs) 0 0
      (procs.map (fun q => { q with rem_bt := q.bt })) [0] [] none).1 :=
    (sortKey_perm (fun r => r.pid) _).mem_iff.mp hp
  have h := srtfLoop_partial (srtfFuel procs) 0 0
      (procs.map (fun q => { q with rem_bt := q.bt })) [0] [] none
      (by intro a ha
          obtain ⟨r, hr, rfl⟩ := List.mem_map.mp ha
          have := (valid_mem hv r hr).2.1
          exact ⟨show (0:Int) ≤ r.bt by omega, show r.bt ≤ r.bt from le_refl _⟩)
      (by intro a ha _ halt
          obtain ⟨r, hr, rfl⟩ := List.mem_map.mp ha
          exact absurd (show r.bt < r.bt from halt) (lt_irrefl _))
      (by intro a ha halt
          obtain ⟨r, hr, rfl⟩ := List.mem_map.mp ha
          exact absurd (show r.bt < r.bt from halt) (lt_irrefl _))
      (by intro a ha h0
          obtain ⟨r, hr, rfl⟩ := List.mem_map.mp ha
          have := (valid_mem hv r hr).2.1
          exact absurd (show r.bt = 0 from h0) (by omega))
      (by intro a ha _
          obtain ⟨r, hr, rfl⟩ := List.mem_map.mp ha
          exact show r.ct = 0 from valid_ct_zero hv r hr)
      p hp2
  by_cases h0 : p.rem_bt = 0
  · exact h.1 h0
  · exact absurd (h.2 h0) hct

/-- C7: for every scheduler and every valid input (positive quantum for
Round Robin), every emitted record that was completed (its completion
time was written; incomplete records keep the initial `ct = 0`) satisfies
completion >= arrival + burst, turnaround = completion - arrival, and
waiting = turnaround - burst >= 0.  FCFS and Round Robin are quantified
over every arrival-sorted permutation that their unspecified-tie
`std::sort` may produce. -/
theorem C7_metrics_invariant (procs : List Process) (quantum : Int)
    (hv : ValidInput procs) (hq : 0 < quantum) :
    (∀ l, l.Perm procs → ∀ p ∈ (fcfsFrom l).procs, p.ct ≠ 0 → MetricsOk p) ∧
    (∀ p ∈ (SJF procs).procs, p.ct ≠ 0 → MetricsOk p) ∧
    (∀ p ∈ (PriorityScheduling procs).procs, p.ct ≠ 0 → MetricsOk p) ∧
    (∀ p ∈ (SRTF procs).procs, p.ct ≠ 0 → MetricsOk p) ∧
    (∀ l, l.Perm procs → arrivalsSorted l →
      ∀ p ∈ (rrFrom quantum (rrFuel procs) l).procs, p.ct ≠ 0 → MetricsOk p) :=
  ⟨fun l hl p hp _ => (FCFS_all_metrics procs l hv hl p hp).1,
   SJF_completed_metrics procs hv,
   Priority_completed_metrics procs hv,
   SRTF_completed_metrics procs hv,
   fun l hl hs p hp _ =>
     (RoundRobin_all_metrics procs quantum l hv hq hl hs p hp).2⟩

/-- Witness for C7: the metrics invariant instantiated at scenario S4
with quantum 2; the validity hypotheses are discharged by evaluation. -/
theorem C7_witness :
    (∀ l, l.Perm s4Procs → ∀ p ∈ (fcfsFrom l).procs, p.ct ≠ 0 →
      MetricsOk p) ∧
    (∀ p ∈ (SJF s4Procs).procs, p.ct ≠ 0 → MetricsOk p) ∧
    (∀ p ∈ (PriorityScheduling s4Procs).procs, p.ct ≠ 0 → MetricsOk p) ∧
    (∀ p ∈ (SRTF s4Procs).procs, p.ct ≠ 0 → MetricsOk p) ∧
    (∀ l, l.Perm s4Procs → arrivalsSorted l →
      ∀ p ∈ (rrFrom 2 (rrFuel s4Procs) l).procs, p.ct ≠ 0 → MetricsOk p) :=
  C7_metrics_invariant s4Procs 2 (by decide) (by decide)

/-- C9 (amended): for every valid input whose arrival, burst and priority
values are below `INT_MAX` (any input the sentinel comparisons cannot
misread), every scheduler finishes within the proved fuel bound and
emits a record for every process with its completion time set
(`ct >= arrival + burst`, part of `MetricsOk`); the remaining-burst field
is 0 after the preemptive engines (SRTF, Round Robin) but keeps its
initial value `bt /= 0` in FCFS, SJF and Priority, which never write it.
At the sentinel value itself the original claim fails: an
`arrival = INT_MAX` process makes SJF/Priority break out with the process
incomplete (see the counterexample), and a `burst = INT_MAX` (or
`priority = INT_MAX`) process is never selected by the SJF/Priority/SRTF
scans, which then idle-loop without progress. -/
theorem C9_termination_all_completed (procs : List Process) (quantum : Int)
    (hv : ValidInput procs) (hq : 0 < quantum)
    (hb : ∀ p ∈ procs, p.arrival < INT_MAX ∧ p.bt < INT_MAX ∧
      p.priority < INT_MAX) :
    (∀ p ∈ (FCFS procs).procs, MetricsOk p ∧ p.rem_bt = p.bt) ∧
    (∀ p ∈ (SJF procs).procs, MetricsOk p ∧ p.rem_bt = p.bt) ∧
    (∀ p ∈ (PriorityScheduling procs).procs, MetricsOk p ∧ p.rem_bt = p.bt) ∧
    (∀ p ∈ (SRTF procs).procs, MetricsOk p ∧ p.rem_bt = 0) ∧
    (∀ p ∈ (RoundRobin procs quantum).procs, MetricsOk p ∧ p.rem_bt = 0) :=
  ⟨FCFS_all_metrics procs (sortByArrival procs) hv
     (show (sortByArrival procs).Perm procs from sortKey_perm _ procs),
   SJF_all_metrics procs hv (fun p hp => ⟨(hb p hp).2.1, (hb p hp).1⟩),
   Priority_all_metrics procs hv (fun p hp => ⟨(hb p hp).2.2, (hb p hp).1⟩),
   fun p hp =>
     ⟨(SRTF_all_metrics procs hv (fun r hr => (hb r hr).2.1) p hp).2,
      (SRTF_all_metrics procs hv (fun r hr => (hb r hr).2.1) p hp).1⟩,
   fun p hp =>
     ⟨(RoundRobin_all_metrics procs quantum (sortByArrival procs) hv hq
        (sortKey_perm _ procs) (sortByArrival_sorted procs) p hp).2,
      (RoundRobin_all_metrics procs quantum (sortByArrival procs) hv hq
        (sortKey_perm _ procs) (sortByArrival_sorted procs) p hp).1⟩⟩

/-- Witness for C9: the completion theorem instantiated at scenario S5
with quantum 2; the validity and bound hypotheses are discharged by
evaluation. -/
theorem C9_witness :
    (∀ p ∈ (FCFS s5Procs).procs, MetricsOk p ∧ p.rem_bt = p.bt) ∧
    (∀ p ∈ (SJF s5Procs).procs, MetricsOk p ∧ p.rem_bt = p.bt) ∧
    (∀ p ∈ (PriorityScheduling s5Procs).procs, MetricsOk p ∧ p.rem_bt = p.bt) ∧
    (∀ p ∈ (SRTF s5Procs).procs, MetricsOk p ∧ p.rem_bt = 0) ∧
    (∀ p ∈ (RoundRobin s5Procs 2).procs, MetricsOk p ∧ p.rem_bt = 0) :=
  C9_termination_all_completed s5Procs 2 (by decide) (by decide) (by decide)

end CpuSched
